import Mathlib

/-
Verification development for dupefinder (src/dupefinder.py).
Shallow embedding of the DupeFileMap pipeline: scan record construction,
digest-algorithm resolution, hashing with cache reuse and hardlink
short-circuit, digest bucketing, duplicate grouping, and the exit-code
accumulation of main. Python dicts are modelled as insertion-ordered
association lists, filesystem state as an abstract snapshot (an isfile
predicate plus a digest oracle giving, for an algorithm key and a path,
the hex digest of that file content), and fatal exceptions as Except or
an explicit error field.
-/

namespace Dupefinder

/-- Association-list lookup, modelling Python dict get: first matching key. -/
def lookupAssoc {α β : Type} [DecidableEq α] : List (α × β) → α → Option β
  | [], _ => none
  | (k, v) :: rest, a => if k = a then some v else lookupAssoc rest a

/-- Association-list update, modelling Python dict assignment: an existing key
keeps its position and gets the new value, a new key is appended at the end. -/
def updateAssoc {α β : Type} [DecidableEq α] : List (α × β) → α → β → List (α × β)
  | [], a, b => [(a, b)]
  | (k, v) :: rest, a, b => if k = a then (a, b) :: rest else (k, v) :: updateAssoc rest a b

/-- One file record, as built by DupeFileMap.scan (src/dupefinder.py lines
103 to 110): the dict literal has exactly the keys Path, FullPath, Name,
Size, ModificationTime and Inum; digest values are added later under
uppercased algorithm-name keys, modelled as a separate association list
(no algorithm key can collide with the fixed mixed-case field names). -/
structure FileRecord where
  Path : String
  FullPath : String
  Name : String
  Size : Nat
  ModificationTime : Int
  Inum : Nat
  digests : List (String × String)
deriving DecidableEq, Repr

/-- Reading the digest value stored under an algorithm key, modelling
file_data.get(a) for an algorithm key a. -/
def getDigest (r : FileRecord) (a : String) : Option String :=
  lookupAssoc r.digests a

/-- Storing a digest value under an algorithm key, modelling
the assignment file_data[a] = value. -/
def setDigest (r : FileRecord) (a : String) (d : String) : FileRecord :=
  { r with digests := updateAssoc r.digests a d }

/-- An imported cache entry (one value of the old hash map): a dict that
holds at most a Path, a FullPath, a Size and digest entries; every field is
optional because import_old does not validate the format. -/
structure OldInfo where
  Path : Option String
  FullPath : Option String
  Size : Option Nat
  digests : List (String × String)
deriving DecidableEq, Repr

/-- A fully processed file record seen as an old-map value: hash() stores
the file_data dicts in file_inum_map, and the reuse loop reads them with
the same dict interface as imported cache entries. -/
def FileRecord.toOldInfo (r : FileRecord) : OldInfo :=
  { Path := some r.Path, FullPath := some r.FullPath, Size := some r.Size,
    digests := r.digests }

/-- Python truthiness of a cache-entry dict: an empty dict is falsy. -/
def OldInfo.isEmptyDict (e : OldInfo) : Bool :=
  e.Path == none && e.FullPath == none && e.Size == none && e.digests == []

/-- Truthiness-filtered digest lookup, modelling the condition
old_file_data.get(a) used at line 206: a missing key and an empty string
are both falsy. -/
def truthyGet (e : OldInfo) (a : String) : Option String :=
  match lookupAssoc e.digests a with
  | some d => if d = "" then none else some d
  | none => none

/-- Cache matching for one record (src/dupefinder.py lines 187 to 192):
exact Path lookup first; if that is falsy (absent, or an empty dict),
a linear scan of the old map values comparing FullPath; if the scan finds
nothing the falsy path hit (possibly an empty dict) is kept. -/
def matchCache (oldMap : List (String × OldInfo)) (r : FileRecord) : Option OldInfo :=
  let byPath := lookupAssoc oldMap r.Path
  let truthy : Bool :=
    match byPath with
    | some e => !e.isEmptyDict
    | none => false
  if truthy then byPath
  else
    match (oldMap.map Prod.snd).find? (fun e => e.FullPath == some r.FullPath) with
    | some e => some e
    | none => byPath

/-- ASCII lowercasing of one character, modelling Python str.lower on the
algorithm names involved here (all ASCII). -/
def charLower (c : Char) : Char :=
  if 65 ≤ c.toNat ∧ c.toNat ≤ 90 then Char.ofNat (c.toNat + 32) else c

/-- ASCII uppercasing of one character, modelling Python str.upper on the
algorithm names involved here (all ASCII). -/
def charUpper (c : Char) : Char :=
  if 97 ≤ c.toNat ∧ c.toNat ≤ 122 then Char.ofNat (c.toNat - 32) else c

/-- Python str.lower restricted to ASCII. -/
def strLower (s : String) : String :=
  ⟨s.data.map charLower⟩

/-- Python str.upper restricted to ASCII. -/
def strUpper (s : String) : String :=
  ⟨s.data.map charUpper⟩

/-- user_algorithms(default=True) (src/dupefinder.py lines 116 to 126):
the configured algorithm list if truthy (nonempty), else the single
default algorithm. -/
def user_algorithms (algorithmsOpt : List String) (defaultAlgo : String) : List String :=
  if algorithmsOpt = [] then [defaultAlgo] else algorithmsOpt

/-- default_algorithm() (line 128): the first entry of
user_algorithms(default=True); the list is never empty, so headD never
falls back. -/
def defaultAlgorithm (algorithmsOpt : List String) (defaultAlgo : String) : String :=
  (user_algorithms algorithmsOpt defaultAlgo).headD defaultAlgo

/-- The loop over requested_list in DupeFileMap.algorithms (lines 150 to
156): each name whose uppercase key is not yet present is looked up in the
hashlib registry; an unrecognized name raises SystemExit. The registry is
modelled as the list of names hashlib.new accepts (the requested names are
already lowercased). -/
def algosLoop (registry : List String) : List String → List String → Except String (List String)
  | acc, [] => .ok acc
  | acc, algo :: rest =>
    if strUpper algo ∈ acc then algosLoop registry acc rest
    else if algo ∈ registry then algosLoop registry (acc ++ [strUpper algo]) rest
    else .error ("unknown hash algorithm: " ++ algo)

/-- DupeFileMap.algorithms body (lines 131 to 161) on an already-lowercased
requested list: the MD5 special case first (requested but unavailable MD5
raises), then the generic loop; the returned list is the dict key list in
insertion order. -/
def algorithmsImpl (registry userList : List String) : Except String (List String) :=
  if "md5" ∈ userList ∧ "md5" ∉ registry then .error "MD5 requested but not available"
  else algosLoop registry (if "md5" ∈ userList then ["MD5"] else []) userList

/-- algorithms(map=True) as called from hash(): the user list (or default)
is lowercased and resolved against the registry. -/
def algorithmsResolve (registry algorithmsOpt : List String) (defaultAlgo : String) :
    Except String (List String) :=
  algorithmsImpl registry ((user_algorithms algorithmsOpt defaultAlgo).map strLower)

/-- Filesystem snapshot used by hash(): isfile for the vanished check and
the open call, and the digest oracle (algorithm key, path to hex digest)
standing for the chunked content read feeding each pending hash object. -/
structure FS where
  isfile : String → Bool
  digest : String → String → String

/-- The vanished-file policy options read by hash(). -/
structure HashOpts where
  ignoreVanished : Bool
  fatalVanished : Bool
deriving DecidableEq, Repr

/-- Mutable state threaded through the hash() loop: file_inum_map, the
imported-hash bookkeeping list, and the list of paths opened for content
reading (each open(path) that succeeds). -/
structure HashState where
  inumMap : List (Nat × FileRecord)
  importedHashFiles : List String
  opens : List String
deriving DecidableEq, Repr

/-- What processing one record produced: the final record (with digests
filled in) and the algorithm keys whose digests were computed from file
content in this step (the remaining_algos at read time); the file content
was read exactly when that list is nonempty. -/
structure ProcLog where
  record : FileRecord
  computed : List String
deriving DecidableEq, Repr

/-- Whether the reuse condition of lines 206 to 211 holds for one algorithm
key: the old data has a truthy digest under the key, and the old Size
equals the current record Size. -/
def reusable (old : Option OldInfo) (size : Nat) (a : String) : Bool :=
  match old with
  | none => false
  | some e => (truthyGet e a).isSome && decide (e.Size = some size)

/-- The per-algorithm reuse loop of lines 205 to 214: for each requested
key, if the old data holds a truthy digest for it and the old Size matches,
the digest is copied into the record and the key is removed from the
remaining (to-compute) set; otherwise the key stays remaining. Returns the
updated record and the remaining keys in order. -/
def reuseLoop (old : Option OldInfo) : List String → FileRecord → FileRecord × List String
  | [], r => (r, [])
  | a :: rest, r =>
    match old with
    | none =>
      let p := reuseLoop none rest r
      (p.1, a :: p.2)
    | some e =>
      match truthyGet e a with
      | none =>
        let p := reuseLoop (some e) rest r
        (p.1, a :: p.2)
      | some d =>
        if e.Size = some r.Size then reuseLoop (some e) rest (setDigest r a d)
        else
          let p := reuseLoop (some e) rest r
          (p.1, a :: p.2)

/-- Computing the remaining digests from file content (lines 221 to 230):
each remaining hash object is fed the file chunks and its hexdigest is
stored in the record. -/
def computeDigests (fs : FS) (path : String) : List String → FileRecord → FileRecord
  | [], r => r
  | a :: rest, r => computeDigests fs path rest (setDigest r a (fs.digest a path))

/-- The effective old data used by the reuse loop (lines 200 to 204): if
the inode is already in file_inum_map the previously hashed record takes
the place of any imported cache match, else the cache match is used. -/
def effOld (oldMap : List (String × OldInfo)) (st : HashState) (r : FileRecord) :
    Option OldInfo :=
  match lookupAssoc st.inumMap r.Inum with
  | some prev => some prev.toOldInfo
  | none => matchCache oldMap r

/-- The body of one hash() loop iteration after the vanished check (lines
186 to 230): cache match, algorithm resolution (which may abort), the
hardlink override, the reuse loop, the open call (which fails if the file
is gone), and either pure bookkeeping (nothing remaining) or the content
read computing the remaining digests and registering the record in
file_inum_map. The open-failure check is written before the pure reuse
loop here; in the source the reuse loop (lines 199 to 214) textually
precedes the open (line 217), but it has no observable effect, so the
error and ok results are identical. -/
def hashStepBody (registry algorithmsOpt : List String) (defaultAlgo : String) (fs : FS)
    (oldMap : List (String × OldInfo)) (st : HashState) (r : FileRecord) :
    Except String (HashState × Option ProcLog) :=
  match algorithmsResolve registry algorithmsOpt defaultAlgo with
  | .error e => .error e
  | .ok algos =>
    if fs.isfile r.Path = false then .error ("file not found: " ++ r.Path)
    else
      let pr := reuseLoop (effOld oldMap st r) algos r
      let st1 : HashState := { st with opens := st.opens ++ [r.Path] }
      if pr.2 = [] then
        .ok (if (matchCache oldMap r).isSome then
              { st1 with importedHashFiles := st1.importedHashFiles ++ [r.Path] }
            else st1,
            some ⟨pr.1, []⟩)
      else
        .ok ({ st1 with
                inumMap := updateAssoc st1.inumMap r.Inum (computeDigests fs r.Path pr.2 pr.1) },
            some ⟨computeDigests fs r.Path pr.2 pr.1, pr.2⟩)

/-- One full hash() loop iteration (lines 171 to 230), starting with the
vanished check: a vanished file is silently dropped under ignore-vanished
(the record leaves the list), fatal under fatal-vanished, and otherwise
only warned about (processing continues and the open call fails). -/
def hashStep (opts : HashOpts) (registry algorithmsOpt : List String) (defaultAlgo : String)
    (fs : FS) (oldMap : List (String × OldInfo)) (st : HashState) (r : FileRecord) :
    Except String (HashState × Option ProcLog) :=
  if fs.isfile r.Path = false ∧ opts.ignoreVanished = true then .ok (st, none)
  else if fs.isfile r.Path = false ∧ opts.fatalVanished = true then
    .error ("file vanished before it could be hashed: " ++ r.Path)
  else hashStepBody registry algorithmsOpt defaultAlgo fs oldMap st r

/-- Result of running hash(): the error if it aborted, the per-record logs
(in processing order, dropped records excluded) whose record components are
the surviving file list, and the final loop state. -/
structure HashOutcome where
  error : Option String
  logs : List ProcLog
  st : HashState
deriving DecidableEq, Repr

/-- The hash() loop over the file list: each record is processed in order,
an error aborts the run (no open happened in the failing iteration). -/
def hashRun (opts : HashOpts) (registry algorithmsOpt : List String) (defaultAlgo : String)
    (fs : FS) (oldMap : List (String × OldInfo)) :
    List FileRecord → HashState → List ProcLog → HashOutcome
  | [], st, logs => ⟨none, logs, st⟩
  | r :: rest, st, logs =>
    match hashStep opts registry algorithmsOpt defaultAlgo fs oldMap st r with
    | .error e => ⟨some e, logs, st⟩
    | .ok (st', none) => hashRun opts registry algorithmsOpt defaultAlgo fs oldMap rest st' logs
    | .ok (st', some log) =>
      hashRun opts registry algorithmsOpt defaultAlgo fs oldMap rest st' (logs ++ [log])

/-- DupeFileMap.hash (lines 163 to 233) on a scanned file list. -/
def hashFiles (opts : HashOpts) (registry algorithmsOpt : List String) (defaultAlgo : String)
    (fs : FS) (oldMap : List (String × OldInfo)) (records : List FileRecord) : HashOutcome :=
  hashRun opts registry algorithmsOpt defaultAlgo fs oldMap records ⟨[], [], []⟩ []

/-- Appending a record to its digest bucket, modelling
hash_map[hash] = hash_map.get(hash, []) + [file_info] on an
insertion-ordered dict. -/
def bucketsInsert (hm : List (String × List FileRecord)) (h : String) (r : FileRecord) :
    List (String × List FileRecord) :=
  match hm with
  | [] => [(h, [r])]
  | (k, l) :: rest => if k = h then (k, l ++ [r]) :: rest else (k, l) :: bucketsInsert rest h r

/-- The hash_map() loop (lines 247 to 256): for each record, a missing
default-algorithm digest raises, a zero Size skips the record, otherwise
the record is appended to the bucket of its digest value. -/
def hashMapGo (hashAlgorithm : String) (acc : List (String × List FileRecord)) :
    List FileRecord → Except String (List (String × List FileRecord))
  | [] => .ok acc
  | r :: rest =>
    match getDigest r hashAlgorithm with
    | none => .error ("missing " ++ hashAlgorithm ++ " hash in file info record")
    | some h =>
      if r.Size = 0 then hashMapGo hashAlgorithm acc rest
      else hashMapGo hashAlgorithm (bucketsInsert acc h r) rest

/-- DupeFileMap.hash_map (lines 244 to 257) over a given file list, keyed
by the given default algorithm name. -/
def hash_map (hashAlgorithm : String) (records : List FileRecord) :
    Except String (List (String × List FileRecord)) :=
  hashMapGo hashAlgorithm [] records

/-- The hardlink collapse of duplicates_map (lines 264 to 274): walk the
bucket keeping a seen-inode list; a record whose inode was already seen is
skipped, otherwise it is kept and its inode recorded. -/
def collapseInums (seen : List Nat) : List FileRecord → List FileRecord
  | [] => []
  | r :: rest =>
    if r.Inum ∈ seen then collapseInums seen rest
    else r :: collapseInums (seen ++ [r.Inum]) rest

/-- The duplicates_map() loop over the buckets (lines 262 to 278): collapse
each bucket by inode and keep it only if more than one record remains. -/
def duplicatesOf (hm : List (String × List FileRecord)) : List (String × List FileRecord) :=
  hm.foldl
    (fun acc p =>
      let dup := collapseInums [] p.2
      if dup.length ≤ 1 then acc else acc ++ [(p.1, dup)])
    []

/-- DupeFileMap.duplicates_map (lines 259 to 280): hash_map() then the
bucket collapse; a hash_map error propagates. -/
def duplicates_map (hashAlgorithm : String) (records : List FileRecord) :
    Except String (List (String × List FileRecord)) :=
  match hash_map hashAlgorithm records with
  | .error e => .error e
  | .ok hm => .ok (duplicatesOf hm)

/-- A stat result as used by scan (lines 84 and 98): device id, inode id,
size and modification time (already truncated to integer seconds). -/
structure Stat where
  dev : Nat
  ino : Nat
  size : Nat
  mtime : Int
deriving DecidableEq, Repr

/-- The per-file step of scan (lines 96 to 112): a file on another device
than the reference device is skipped, otherwise the record is built from
the path, the absolute path, the base name and the stat result. The dict
literal at lines 103 to 110 stores Path, FullPath, Name, Size,
ModificationTime and Inum; the digest map starts empty. -/
def scanFileEntry (origDev : Nat) (path fullPath name : String) (st : Stat) :
    Option FileRecord :=
  if st.dev = origDev then
    some { Path := path, FullPath := fullPath, Name := name, Size := st.size,
           ModificationTime := st.mtime, Inum := st.ino, digests := [] }
  else none

/-- The accumulator of the duplicate-group loop in main (lines 412 to 445):
the return code, the count of replaced files and the running wasted-space
total. -/
structure MainAcc where
  rc : Nat
  replaced : Nat
  wasted : Nat
deriving DecidableEq, Repr

/-- Processing one group member at index i in the main loop (lines 421 to
444): any member upgrades rc 0 to 2; a member past the first adds its Size
to the wasted total and, when linking is enabled, is replaced (rc becomes 4
and the replaced count increments; the remove and link calls are modelled
as succeeding). -/
def memberStep (link : Bool) (i : Nat) (acc : MainAcc) (r : FileRecord) : MainAcc :=
  let acc1 := if acc.rc = 0 then { acc with rc := 2 } else acc
  if i = 0 then acc1
  else
    let acc2 := { acc1 with wasted := acc1.wasted + r.Size }
    if link then { acc2 with rc := 4, replaced := acc2.replaced + 1 } else acc2

/-- The enumerate loop over one duplicate group in main. -/
def groupLoop (link : Bool) : Nat → MainAcc → List FileRecord → MainAcc
  | _, acc, [] => acc
  | i, acc, r :: rest => groupLoop link (i + 1) (memberStep link i acc r) rest

/-- The loop of main over the duplicates map (lines 412 to 445), producing
the final return code, replaced-file count and wasted-space total; main
returns rc as the exit status (line 462). -/
def mainLoop (link : Bool) (dm : List (String × List FileRecord)) : MainAcc :=
  dm.foldl (fun acc p => groupLoop link 0 acc p.2) ⟨0, 0, 0⟩

/-- Every requested algorithm key has a digest entry in the record. -/
def hasAllAlgos (algos : List String) (r : FileRecord) : Prop :=
  ∀ a ∈ algos, (getDigest r a).isSome

/-- Every requested algorithm key has a truthy (nonempty) digest entry. -/
def goodRec (algos : List String) (r : FileRecord) : Prop :=
  ∀ a ∈ algos, ∃ d, getDigest r a = some d ∧ d ≠ ""

/-- The hardlink short-circuit relation between two processing logs, in
processing order: if the earlier record was content-read and the later one
names the same inode, then the later one was not content-read and carries
the same digest values for every requested algorithm key. -/
def hlR (algos : List String) (l1 l2 : ProcLog) : Prop :=
  l1.computed ≠ [] → l1.record.Inum = l2.record.Inum →
    l2.computed = [] ∧ ∀ a ∈ algos, getDigest l2.record a = getDigest l1.record a

/-- Invariant threaded through the hash() loop for the hardlink
short-circuit argument: the logs so far satisfy hlR pairwise; every
content-read log is registered in the inode map under its inode; every
inode-map entry is keyed by its own inode, has truthy digests for all
requested keys, and carries the Size of some input record with that inode;
and every computed digest value came from the content oracle at the
record path. -/
def hlInv (fs : FS) (inputs : List FileRecord) (algos : List String)
    (st : HashState) (logs : List ProcLog) : Prop :=
  logs.Pairwise (hlR algos) ∧
  (∀ l ∈ logs, l.computed ≠ [] → lookupAssoc st.inumMap l.record.Inum = some l.record) ∧
  (∀ k q, lookupAssoc st.inumMap k = some q →
    q.Inum = k ∧ goodRec algos q ∧ ∃ orig ∈ inputs, orig.Inum = k ∧ q.Size = orig.Size) ∧
  (∀ l ∈ logs, ∀ a ∈ l.computed, getDigest l.record a = some (fs.digest a l.record.Path))

/-- Sample filesystem snapshot: every path exists and every digest is the
fixed nonempty string f1. -/
def wFS : FS := ⟨fun _ => true, fun _ _ => "f1"⟩

/-- Sample record: size 3, inode 1, MD5 digest value d. -/
def w1 : FileRecord := ⟨"a", "/a", "a", 3, 0, 1, [("MD5", "d")]⟩

/-- Sample record: size 3, inode 2, same MD5 digest value d as w1. -/
def w2 : FileRecord := ⟨"b", "/b", "b", 3, 0, 2, [("MD5", "d")]⟩

/-- Sample record: a hardlink of w2 (same inode 2), same digest value. -/
def w3 : FileRecord := ⟨"b2", "/b2", "b2", 3, 0, 2, [("MD5", "d")]⟩

/-- Sample scanned list: two distinct physical files plus one hardlink. -/
def wRecords : List FileRecord := [w1, w2, w3]

/-- Record with inode 5, not present in the imported cache. -/
def c4r1 : FileRecord := ⟨"a", "/a", "a", 1, 0, 5, []⟩

/-- Record that is a hardlink of c4r1 (same inode 5) and is present in the
imported cache. -/
def c4r2 : FileRecord := ⟨"b", "/b", "b", 1, 0, 5, []⟩

/-- Imported cache entry for c4r2: matching Size but a stale digest value
that differs from the freshly computed one. -/
def c4e : OldInfo := ⟨some "b", none, some 1, [("MD5", "cached")]⟩

/-- Imported cache containing only the entry for c4r2. -/
def c4Cache : List (String × OldInfo) := [("b", c4e)]

/-- Record of size 1 whose cache entry carries digest value d. -/
def c9r1 : FileRecord := ⟨"p", "/p", "p", 1, 0, 11, []⟩

/-- Record of size 2 whose cache entry carries the same digest value d. -/
def c9r2 : FileRecord := ⟨"q", "/q", "q", 2, 0, 12, []⟩

/-- Imported cache giving the same digest value to two files of different
sizes (each entry size matches its own file, so both are reused). -/
def c9Cache : List (String × OldInfo) :=
  [("p", ⟨some "p", none, some 1, [("MD5", "d")]⟩),
   ("q", ⟨some "q", none, some 2, [("MD5", "d")]⟩)]

end Dupefinder

namespace Dupefinder

theorem lookupAssoc_updateAssoc {α β : Type} [DecidableEq α]
    (l : List (α × β)) (a : α) (b : β) (a' : α) :
    lookupAssoc (updateAssoc l a b) a' = if a = a' then some b else lookupAssoc l a' := by
  induction l with
  | nil => simp [lookupAssoc, updateAssoc]
  | cons hd tl ih =>
    obtain ⟨k, v⟩ := hd
    by_cases hk : k = a
    · subst hk
      simp only [updateAssoc, if_pos rfl, lookupAssoc]
      by_cases hk' : k = a'
      · simp [hk']
      · simp [hk']
    · simp only [updateAssoc, if_neg hk, lookupAssoc]
      by_cases hk' : k = a'
      · subst hk'
        have : ¬ a = k := fun h => hk h.symm
        simp [this, lookupAssoc]
      · simp [hk', ih]

theorem getDigest_setDigest (r : FileRecord) (a d a' : String) :
    getDigest (setDigest r a d) a' = if a = a' then some d else getDigest r a' := by
  simp [getDigest, setDigest, lookupAssoc_updateAssoc]

theorem setDigest_Size (r : FileRecord) (a d : String) : (setDigest r a d).Size = r.Size := rfl

theorem setDigest_Inum (r : FileRecord) (a d : String) : (setDigest r a d).Inum = r.Inum := rfl

theorem setDigest_Path (r : FileRecord) (a d : String) : (setDigest r a d).Path = r.Path := rfl

theorem reuseLoop_fields (old : Option OldInfo) (l : List String) (r : FileRecord) :
    (reuseLoop old l r).1.Size = r.Size ∧ (reuseLoop old l r).1.Inum = r.Inum ∧
      (reuseLoop old l r).1.Path = r.Path := by
  induction l generalizing r with
  | nil => simp [reuseLoop]
  | cons a rest ih =>
    cases old with
    | none => simpa [reuseLoop] using ih (r := r)
    | some e =>
      simp only [reuseLoop]
      cases htg : truthyGet e a with
      | none => simpa using ih (r := r)
      | some d =>
        by_cases hsz : e.Size = some r.Size
        · simpa [hsz, setDigest_Size, setDigest_Inum, setDigest_Path] using
            ih (r := setDigest r a d)
        · simpa [hsz] using ih (r := r)

theorem reuseLoop_remaining (old : Option OldInfo) (l : List String) (r : FileRecord) :
    (reuseLoop old l r).2 = l.filter (fun a => !reusable old r.Size a) := by
  induction l generalizing r with
  | nil => simp [reuseLoop]
  | cons a rest ih =>
    cases old with
    | none => simp [reuseLoop, reusable, ih]
    | some e =>
      cases htg : truthyGet e a with
      | none =>
        simp only [reuseLoop, htg]
        simp [reusable, htg, ih, List.filter]
      | some d =>
        by_cases hsz : e.Size = some r.Size
        · simp only [reuseLoop, htg, if_pos hsz]
          have := ih (r := setDigest r a d)
          simp only [this, setDigest_Size]
          simp [List.filter, reusable, htg, hsz]
        · simp only [reuseLoop, htg, if_neg hsz]
          simp [List.filter, reusable, htg, hsz, ih]

theorem reuseLoop_getDigest_notMem (old : Option OldInfo) (l : List String) (r : FileRecord)
    (a : String) (ha : a ∉ l) :
    getDigest (reuseLoop old l r).1 a = getDigest r a := by
  induction l generalizing r with
  | nil => simp [reuseLoop]
  | cons b rest ih =>
    have hb : b ≠ a := fun h => ha (h ▸ List.mem_cons_self b rest)
    have harest : a ∉ rest := fun h => ha (List.mem_cons_of_mem b h)
    cases old with
    | none => simpa [reuseLoop] using ih (r := r) harest
    | some e =>
      cases htg : truthyGet e b with
      | none => simpa [reuseLoop, htg] using ih (r := r) harest
      | some d =>
        by_cases hsz : e.Size = some r.Size
        · simp only [reuseLoop, htg, if_pos hsz]
          rw [ih (r := setDigest r b d) harest, getDigest_setDigest, if_neg hb]
        · simpa [reuseLoop, htg, hsz] using ih (r := r) harest

theorem reuseLoop_getDigest_reused (old : Option OldInfo) (l : List String) (r : FileRecord)
    (a : String) (hnd : l.Nodup) (ha : a ∈ l) (hre : reusable old r.Size a = true) :
    ∃ e d, old = some e ∧ truthyGet e a = some d ∧
      getDigest (reuseLoop old l r).1 a = some d := by
  induction l generalizing r with
  | nil => cases ha
  | cons b rest ih =>
    cases old with
    | none => simp [reusable] at hre
    | some e =>
      rcases List.mem_cons.mp ha with hab | harest
      · subst hab
        have hre' := hre
        simp only [reusable, Bool.and_eq_true, decide_eq_true_eq] at hre'
        obtain ⟨htg, hsz⟩ := hre'
        rcases Option.isSome_iff_exists.mp htg with ⟨d, hd⟩
        refine ⟨e, d, rfl, hd, ?_⟩
        simp only [reuseLoop, hd, if_pos hsz]
        have hanotin : a ∉ rest := (List.nodup_cons.mp hnd).1
        rw [reuseLoop_getDigest_notMem _ _ _ _ hanotin, getDigest_setDigest, if_pos rfl]
      · have hnd' : rest.Nodup := (List.nodup_cons.mp hnd).2
        cases htg : truthyGet e b with
        | none => simpa [reuseLoop, htg] using ih (r := r) hnd' harest hre
        | some d =>
          by_cases hsz : e.Size = some r.Size
          · simp only [reuseLoop, htg, if_pos hsz]
            have hre2 : reusable (some e) (setDigest r b d).Size a = true := by
              rw [setDigest_Size]; exact hre
            simpa using ih (r := setDigest r b d) hnd' harest hre2
          · simpa [reuseLoop, htg, hsz] using ih (r := r) hnd' harest hre

theorem reuseLoop_getDigest_notReused (old : Option OldInfo) (l : List String) (r : FileRecord)
    (a : String) (hre : reusable old r.Size a = false) :
    getDigest (reuseLoop old l r).1 a = getDigest r a := by
  induction l generalizing r with
  | nil => simp [reuseLoop]
  | cons b rest ih =>
    cases old with
    | none => simpa [reuseLoop] using ih (r := r) hre
    | some e =>
      cases htg : truthyGet e b with
      | none => simpa [reuseLoop, htg] using ih (r := r) hre
      | some d =>
        by_cases hsz : e.Size = some r.Size
        · simp only [reuseLoop, htg, if_pos hsz]
          have hba : b ≠ a := by
            intro h
            subst h
            simp [reusable, htg, hsz] at hre
          have hre2 : reusable (some e) (setDigest r b d).Size a = false := by
            rw [setDigest_Size]; exact hre
          rw [ih (r := setDigest r b d) hre2, getDigest_setDigest, if_neg hba]
        · simpa [reuseLoop, htg, hsz] using ih (r := r) hre

theorem computeDigests_fields (fs : FS) (p : String) (l : List String) (r : FileRecord) :
    (computeDigests fs p l r).Size = r.Size ∧ (computeDigests fs p l r).Inum = r.Inum ∧
      (computeDigests fs p l r).Path = r.Path := by
  induction l generalizing r with
  | nil => simp [computeDigests]
  | cons a rest ih =>
    simpa [computeDigests, setDigest_Size, setDigest_Inum, setDigest_Path] using
      ih (r := setDigest r a (fs.digest a p))

theorem computeDigests_getDigest_notMem (fs : FS) (p : String) (l : List String)
    (r : FileRecord) (a : String) (ha : a ∉ l) :
    getDigest (computeDigests fs p l r) a = getDigest r a := by
  induction l generalizing r with
  | nil => simp [computeDigests]
  | cons b rest ih =>
    have hb : b ≠ a := fun h => ha (h ▸ List.mem_cons_self b rest)
    have harest : a ∉ rest := fun h => ha (List.mem_cons_of_mem b h)
    rw [computeDigests, ih (r := setDigest r b (fs.digest b p)) harest,
      getDigest_setDigest, if_neg hb]

theorem computeDigests_getDigest_mem (fs : FS) (p : String) (l : List String)
    (r : FileRecord) (a : String) (hnd : l.Nodup) (ha : a ∈ l) :
    getDigest (computeDigests fs p l r) a = some (fs.digest a p) := by
  induction l generalizing r with
  | nil => cases ha
  | cons b rest ih =>
    rcases List.mem_cons.mp ha with hab | harest
    · subst hab
      have hanotin : a ∉ rest := (List.nodup_cons.mp hnd).1
      rw [computeDigests, computeDigests_getDigest_notMem _ _ _ _ _ hanotin,
        getDigest_setDigest, if_pos rfl]
    · rw [computeDigests]
      exact ih (r := setDigest r b (fs.digest b p)) (List.nodup_cons.mp hnd).2 harest

theorem algosLoop_sub (registry : List String) (l acc res : List String)
    (h : algosLoop registry acc l = .ok res) : ∀ x ∈ acc, x ∈ res := by
  induction l generalizing acc with
  | nil =>
    simp only [algosLoop] at h
    cases h
    exact fun x hx => hx
  | cons a rest ih =>
    simp only [algosLoop] at h
    by_cases hmem : strUpper a ∈ acc
    · rw [if_pos hmem] at h
      exact ih acc h
    · rw [if_neg hmem] at h
      by_cases hreg : a ∈ registry
      · rw [if_pos hreg] at h
        exact fun x hx => ih (acc ++ [strUpper a]) h x (List.mem_append_left _ hx)
      · rw [if_neg hreg] at h
        cases h

theorem algosLoop_mem (registry : List String) (l acc res : List String)
    (h : algosLoop registry acc l = .ok res) : ∀ a ∈ l, strUpper a ∈ res := by
  induction l generalizing acc with
  | nil => intro a ha; cases ha
  | cons b rest ih =>
    intro a ha
    simp only [algosLoop] at h
    by_cases hmem : strUpper b ∈ acc
    · rw [if_pos hmem] at h
      rcases List.mem_cons.mp ha with hab | harest
      · subst hab
        exact algosLoop_sub registry rest acc res h _ hmem
      · exact ih acc h a harest
    · rw [if_neg hmem] at h
      by_cases hreg : b ∈ registry
      · rw [if_pos hreg] at h
        rcases List.mem_cons.mp ha with hab | harest
        · subst hab
          exact algosLoop_sub registry rest _ res h _
            (List.mem_append_right _ (List.mem_singleton.mpr rfl))
        · exact ih _ h a harest
      · rw [if_neg hreg] at h
        cases h

theorem algosLoop_nodup (registry : List String) (l acc res : List String)
    (hacc : acc.Nodup) (h : algosLoop registry acc l = .ok res) : res.Nodup := by
  induction l generalizing acc with
  | nil =>
    simp only [algosLoop] at h
    cases h
    exact hacc
  | cons a rest ih =>
    simp only [algosLoop] at h
    by_cases hmem : strUpper a ∈ acc
    · rw [if_pos hmem] at h
      exact ih acc hacc h
    · rw [if_neg hmem] at h
      by_cases hreg : a ∈ registry
      · rw [if_pos hreg] at h
        refine ih _ ?_ h
        simpa [List.nodup_append] using ⟨hacc, hmem⟩
      · rw [if_neg hreg] at h
        cases h

theorem algorithmsResolve_nodup (registry algorithmsOpt : List String) (defaultAlgo : String)
    (algos : List String) (h : algorithmsResolve registry algorithmsOpt defaultAlgo = .ok algos) :
    algos.Nodup := by
  unfold algorithmsResolve algorithmsImpl at h
  split at h
  · cases h
  · refine algosLoop_nodup _ _ _ _ ?_ h
    split <;> simp

theorem algorithmsResolve_userMem (registry algorithmsOpt : List String) (defaultAlgo : String)
    (algos : List String) (h : algorithmsResolve registry algorithmsOpt defaultAlgo = .ok algos) :
    ∀ x ∈ user_algorithms algorithmsOpt defaultAlgo, strUpper (strLower x) ∈ algos := by
  unfold algorithmsResolve algorithmsImpl at h
  split at h
  · cases h
  · intro x hx
    exact algosLoop_mem _ _ _ _ h (strLower x) (List.mem_map_of_mem strLower hx)

theorem user_algorithms_ne_nil (algorithmsOpt : List String) (defaultAlgo : String) :
    user_algorithms algorithmsOpt defaultAlgo ≠ [] := by
  unfold user_algorithms
  split
  · simp
  · assumption

theorem defaultAlgorithm_mem (algorithmsOpt : List String) (defaultAlgo : String) :
    defaultAlgorithm algorithmsOpt defaultAlgo ∈ user_algorithms algorithmsOpt defaultAlgo := by
  unfold defaultAlgorithm
  cases hu : user_algorithms algorithmsOpt defaultAlgo with
  | nil => exact absurd hu (user_algorithms_ne_nil algorithmsOpt defaultAlgo)
  | cons a l => simp

theorem collapseInums_sublist (seen : List Nat) (l : List FileRecord) :
    List.Sublist (collapseInums seen l) l := by
  induction l generalizing seen with
  | nil => simp [collapseInums]
  | cons r rest ih =>
    by_cases hmem : r.Inum ∈ seen
    · simp only [collapseInums, if_pos hmem]
      exact List.Sublist.cons r (ih seen)
    · simp only [collapseInums, if_neg hmem]
      exact List.Sublist.cons₂ r (ih (seen ++ [r.Inum]))

theorem collapseInums_notSeen (seen : List Nat) (l : List FileRecord) :
    ∀ x ∈ collapseInums seen l, x.Inum ∉ seen := by
  induction l generalizing seen with
  | nil => simp [collapseInums]
  | cons r rest ih =>
    intro x hx
    by_cases hmem : r.Inum ∈ seen
    · rw [collapseInums, if_pos hmem] at hx
      exact ih seen x hx
    · rw [collapseInums, if_neg hmem] at hx
      rcases List.mem_cons.mp hx with hxr | hxrest
      · subst hxr; exact hmem
      · intro hs
        exact ih (seen ++ [r.Inum]) x hxrest (List.mem_append_left _ hs)

theorem collapseInums_nodup (seen : List Nat) (l : List FileRecord) :
    ((collapseInums seen l).map (fun r => r.Inum)).Nodup := by
  induction l generalizing seen with
  | nil => simp [collapseInums]
  | cons r rest ih =>
    by_cases hmem : r.Inum ∈ seen
    · simpa [collapseInums, if_pos hmem] using ih seen
    · rw [collapseInums, if_neg hmem]
      rw [List.map_cons, List.nodup_cons]
      constructor
      · intro hcontra
        rcases List.mem_map.mp hcontra with ⟨x, hx, hxe⟩
        exact collapseInums_notSeen _ _ x hx (List.mem_append_right _ (by simp [hxe]))
      · exact ih (seen ++ [r.Inum])

theorem collapseInums_first (seen : List Nat) (l1 : List FileRecord) (r : FileRecord)
    (l2 : List FileRecord) (hseen : r.Inum ∉ seen)
    (hfirst : ∀ x ∈ l1, x.Inum ≠ r.Inum) :
    r ∈ collapseInums seen (l1 ++ r :: l2) := by
  induction l1 generalizing seen with
  | nil =>
    simp only [List.nil_append, collapseInums, if_neg hseen]
    exact List.mem_cons_self r _
  | cons x l1' ih =>
    have hx : x.Inum ≠ r.Inum := hfirst x (List.mem_cons_self x l1')
    have hrest : ∀ y ∈ l1', y.Inum ≠ r.Inum := fun y hy => hfirst y (List.mem_cons_of_mem x hy)
    by_cases hmem : x.Inum ∈ seen
    · rw [List.cons_append, collapseInums, if_pos hmem]
      exact ih seen hseen hrest
    · rw [List.cons_append, collapseInums, if_neg hmem]
      refine List.mem_cons_of_mem x (ih (seen ++ [x.Inum]) ?_ hrest)
      intro hcontra
      rcases List.mem_append.mp hcontra with hc | hc
      · exact hseen hc
      · exact hx (List.mem_singleton.mp hc).symm

/-- The invariant carried by the hash_map accumulator: every record in a
bucket has the bucket key as its digest value, a nonzero Size, and comes
from the given universe of records. -/
def BucketInv (hashAlgorithm : String) (univ : List FileRecord)
    (m : List (String × List FileRecord)) : Prop :=
  ∀ p ∈ m, ∀ r ∈ p.2, getDigest r hashAlgorithm = some p.1 ∧ r.Size ≠ 0 ∧ r ∈ univ

theorem bucketsInsert_inv (hashAlgorithm : String) (univ : List FileRecord)
    (m : List (String × List FileRecord)) (h : String) (r : FileRecord)
    (hm : BucketInv hashAlgorithm univ m) (hr : getDigest r hashAlgorithm = some h)
    (hs : r.Size ≠ 0) (hu : r ∈ univ) :
    BucketInv hashAlgorithm univ (bucketsInsert m h r) := by
  induction m with
  | nil =>
    intro p hp x hx
    simp only [bucketsInsert, List.mem_singleton] at hp
    subst hp
    simp only [List.mem_singleton] at hx
    subst hx
    exact ⟨hr, hs, hu⟩
  | cons q rest ih =>
    obtain ⟨k, l⟩ := q
    by_cases hk : k = h
    · subst hk
      intro p hp x hx
      rw [bucketsInsert, if_pos rfl] at hp
      rcases List.mem_cons.mp hp with hph | hpr
      · subst hph
        simp only at hx
        rcases List.mem_append.mp hx with hxl | hxr
        · exact hm (k, l) (List.mem_cons_self _ _) x hxl
        · rw [List.mem_singleton] at hxr
          subst hxr
          exact ⟨hr, hs, hu⟩
      · exact hm p (List.mem_cons_of_mem _ hpr) x hx
    · intro p hp x hx
      rw [bucketsInsert, if_neg hk] at hp
      rcases List.mem_cons.mp hp with hph | hpr
      · subst hph
        exact hm (k, l) (List.mem_cons_self _ _) x hx
      · have hrest : BucketInv hashAlgorithm univ rest :=
          fun p hp x hx => hm p (List.mem_cons_of_mem _ hp) x hx
        exact ih hrest p hpr x hx

theorem hashMapGo_inv (hashAlgorithm : String) (univ : List FileRecord)
    (l : List FileRecord) (acc hm : List (String × List FileRecord))
    (hl : ∀ r ∈ l, r ∈ univ) (hacc : BucketInv hashAlgorithm univ acc)
    (h : hashMapGo hashAlgorithm acc l = .ok hm) :
    BucketInv hashAlgorithm univ hm := by
  induction l generalizing acc with
  | nil =>
    simp only [hashMapGo] at h
    cases h
    exact hacc
  | cons r rest ih =>
    have hrrest : ∀ x ∈ rest, x ∈ univ := fun x hx => hl x (List.mem_cons_of_mem r hx)
    cases hd : getDigest r hashAlgorithm with
    | none => rw [hashMapGo, hd] at h; cases h
    | some dg =>
      by_cases hz : r.Size = 0
      · simp only [hashMapGo, hd, if_pos hz] at h
        exact ih _ hrrest hacc h
      · simp only [hashMapGo, hd, if_neg hz] at h
        exact ih _ hrrest
          (bucketsInsert_inv hashAlgorithm univ acc dg r hacc hd hz
            (hl r (List.mem_cons_self r rest))) h

/-- The key list of a bucket map. -/
def bucketKeys (m : List (String × List FileRecord)) : List String :=
  m.map Prod.fst

theorem bucketsInsert_keys (m : List (String × List FileRecord)) (h : String) (r : FileRecord) :
    bucketKeys (bucketsInsert m h r) =
      if h ∈ bucketKeys m then bucketKeys m else bucketKeys m ++ [h] := by
  induction m with
  | nil => simp [bucketsInsert, bucketKeys]
  | cons q rest ih =>
    obtain ⟨k, l⟩ := q
    by_cases hk : k = h
    · subst hk
      rw [bucketsInsert, if_pos rfl]
      have hmem : k ∈ bucketKeys ((k, l) :: rest) := by simp [bucketKeys]
      rw [if_pos hmem]
      simp [bucketKeys]
    · rw [bucketsInsert, if_neg hk]
      have hkeys : bucketKeys ((k, l) :: rest) = k :: bucketKeys rest := rfl
      have hkeys2 : bucketKeys ((k, l) :: bucketsInsert rest h r) =
          k :: bucketKeys (bucketsInsert rest h r) := rfl
      rw [hkeys2, ih, hkeys]
      by_cases hmem : h ∈ bucketKeys rest
      · rw [if_pos hmem, if_pos (List.mem_cons_of_mem k hmem)]
      · have hnotin : h ∉ k :: bucketKeys rest := by
          intro hc
          rcases List.mem_cons.mp hc with hc | hc
          · exact hk hc.symm
          · exact hmem hc
        rw [if_neg hmem, if_neg hnotin]
        simp

theorem hashMapGo_keysNodup (hashAlgorithm : String) (l : List FileRecord)
    (acc hm : List (String × List FileRecord)) (hacc : (bucketKeys acc).Nodup)
    (h : hashMapGo hashAlgorithm acc l = .ok hm) : (bucketKeys hm).Nodup := by
  induction l generalizing acc with
  | nil =>
    simp only [hashMapGo] at h
    cases h
    exact hacc
  | cons r rest ih =>
    cases hd : getDigest r hashAlgorithm with
    | none => rw [hashMapGo, hd] at h; cases h
    | some dg =>
      by_cases hz : r.Size = 0
      · simp only [hashMapGo, hd, if_pos hz] at h
        exact ih _ hacc h
      · simp only [hashMapGo, hd, if_neg hz] at h
        refine ih _ ?_ h
        rw [bucketsInsert_keys]
        by_cases hmem : dg ∈ bucketKeys acc
        · rwa [if_pos hmem]
        · rw [if_neg hmem]
          simpa [List.nodup_append] using ⟨hacc, hmem⟩

theorem assoc_bucket_unique (m : List (String × List FileRecord))
    (hnd : (bucketKeys m).Nodup) (h : String) (b1 b2 : List FileRecord)
    (h1 : (h, b1) ∈ m) (h2 : (h, b2) ∈ m) : b1 = b2 := by
  induction m with
  | nil => cases h1
  | cons q rest ih =>
    obtain ⟨k, l⟩ := q
    have hk : k ∉ rest.map Prod.fst := by
      have := hnd
      simp only [bucketKeys, List.map_cons, List.nodup_cons] at this
      exact this.1
    have hndrest : (bucketKeys rest).Nodup := by
      have := hnd
      simp only [bucketKeys, List.map_cons, List.nodup_cons] at this
      exact this.2
    rcases List.mem_cons.mp h1 with he1 | hr1
    · rcases List.mem_cons.mp h2 with he2 | hr2
      · rw [Prod.mk.injEq] at he1 he2
        exact he1.2.trans he2.2.symm
      · exfalso
        apply hk
        rw [Prod.mk.injEq] at he1
        exact List.mem_map.mpr ⟨(h, b2), hr2, he1.1⟩
    · rcases List.mem_cons.mp h2 with he2 | hr2
      · exfalso
        apply hk
        rw [Prod.mk.injEq] at he2
        exact List.mem_map.mpr ⟨(h, b1), hr1, he2.1⟩
      · exact ih hndrest hr1 hr2

theorem hashMapGo_total (hashAlgorithm : String) (l : List FileRecord)
    (acc : List (String × List FileRecord))
    (hall : ∀ r ∈ l, (getDigest r hashAlgorithm).isSome) :
    ∃ hm, hashMapGo hashAlgorithm acc l = .ok hm := by
  induction l generalizing acc with
  | nil => exact ⟨acc, rfl⟩
  | cons r rest ih =>
    have hr := hall r (List.mem_cons_self r rest)
    rcases Option.isSome_iff_exists.mp hr with ⟨dg, hdg⟩
    have hrest : ∀ x ∈ rest, (getDigest x hashAlgorithm).isSome :=
      fun x hx => hall x (List.mem_cons_of_mem r hx)
    by_cases hz : r.Size = 0
    · simp only [hashMapGo, hdg, if_pos hz]
      exact ih _ hrest
    · simp only [hashMapGo, hdg, if_neg hz]
      exact ih _ hrest

theorem duplicatesOf_mem_aux (hm : List (String × List FileRecord))
    (acc : List (String × List FileRecord)) (p : String × List FileRecord) :
    p ∈ hm.foldl
        (fun acc q =>
          let dup := collapseInums [] q.2
          if dup.length ≤ 1 then acc else acc ++ [(q.1, dup)]) acc ↔
      p ∈ acc ∨ ∃ q ∈ hm, p = (q.1, collapseInums [] q.2) ∧
        ¬ (collapseInums [] q.2).length ≤ 1 := by
  induction hm generalizing acc with
  | nil => simp
  | cons q rest ih =>
    rw [List.foldl_cons, ih]
    by_cases hlen : (collapseInums [] q.2).length ≤ 1
    · simp only [hlen, if_pos hlen]
      constructor
      · rintro (hp | ⟨q', hq', hpe, hq'len⟩)
        · exact Or.inl hp
        · exact Or.inr ⟨q', List.mem_cons_of_mem q hq', hpe, hq'len⟩
      · rintro (hp | ⟨q', hq', hpe, hq'len⟩)
        · exact Or.inl hp
        · rcases List.mem_cons.mp hq' with hqq | hqr
          · subst hqq
            exact absurd hlen hq'len
          · exact Or.inr ⟨q', hqr, hpe, hq'len⟩
    · simp only [if_neg hlen]
      constructor
      · rintro (hp | ⟨q', hq', hpe, hq'len⟩)
        · rcases List.mem_append.mp hp with hpa | hpq
          · exact Or.inl hpa
          · rw [List.mem_singleton] at hpq
            exact Or.inr ⟨q, List.mem_cons_self q rest, hpq, hlen⟩
        · exact Or.inr ⟨q', List.mem_cons_of_mem q hq', hpe, hq'len⟩
      · rintro (hp | ⟨q', hq', hpe, hq'len⟩)
        · exact Or.inl (List.mem_append_left _ hp)
        · rcases List.mem_cons.mp hq' with hqq | hqr
          · subst hqq
            exact Or.inl (List.mem_append_right _ (List.mem_singleton.mpr hpe))
          · exact Or.inr ⟨q', hqr, hpe, hq'len⟩

theorem duplicatesOf_mem (hm : List (String × List FileRecord)) (p : String × List FileRecord) :
    p ∈ duplicatesOf hm ↔
      ∃ q ∈ hm, p = (q.1, collapseInums [] q.2) ∧ ¬ (collapseInums [] q.2).length ≤ 1 := by
  rw [duplicatesOf, duplicatesOf_mem_aux]
  simp

theorem memberStep_rc_ne_zero (link : Bool) (i : Nat) (acc : MainAcc) (r : FileRecord) :
    (memberStep link i acc r).rc ≠ 0 := by
  by_cases hrc : acc.rc = 0 <;> by_cases hi : i = 0 <;> by_cases hl : link <;>
    simp [memberStep, hrc, hi, hl]

theorem memberStep_wasted (link : Bool) (i : Nat) (acc : MainAcc) (r : FileRecord) :
    (memberStep link i acc r).wasted = acc.wasted + (if i = 0 then 0 else r.Size) := by
  by_cases hrc : acc.rc = 0 <;> by_cases hi : i = 0 <;> by_cases hl : link <;>
    simp [memberStep, hrc, hi, hl]

theorem memberStep_replaced (link : Bool) (i : Nat) (acc : MainAcc) (r : FileRecord) :
    (memberStep link i acc r).replaced =
      acc.replaced + (if i ≠ 0 ∧ link = true then 1 else 0) := by
  by_cases hrc : acc.rc = 0 <;> by_cases hi : i = 0 <;> by_cases hl : link <;>
    simp [memberStep, hrc, hi, hl]

theorem memberStep_rc_four (link : Bool) (i : Nat) (acc : MainAcc) (r : FileRecord) :
    ((memberStep link i acc r).rc = 4 ↔ acc.rc = 4 ∨ (i ≠ 0 ∧ link = true)) := by
  by_cases hrc : acc.rc = 0 <;> by_cases hi : i = 0 <;> by_cases hl : link <;>
    simp [memberStep, hrc, hi, hl]

theorem memberStep_adm (link : Bool) (i : Nat) (acc : MainAcc) (r : FileRecord)
    (h : acc.rc = 0 ∨ acc.rc = 2 ∨ acc.rc = 4) :
    (memberStep link i acc r).rc = 0 ∨ (memberStep link i acc r).rc = 2 ∨
      (memberStep link i acc r).rc = 4 := by
  by_cases hrc : acc.rc = 0 <;> by_cases hi : i = 0 <;> by_cases hl : link <;>
    simp [memberStep, hrc, hi, hl] <;> omega

theorem groupLoop_rc_zero (link : Bool) (l : List FileRecord) (i : Nat) (acc : MainAcc) :
    ((groupLoop link i acc l).rc = 0 ↔ acc.rc = 0 ∧ l = []) := by
  induction l generalizing i acc with
  | nil => simp [groupLoop]
  | cons r rest ih =>
    rw [groupLoop]
    constructor
    · intro h
      rcases (ih (i + 1) (memberStep link i acc r)).mp h with ⟨hz, _⟩
      exact absurd hz (memberStep_rc_ne_zero link i acc r)
    · rintro ⟨_, hc⟩
      cases hc

theorem groupLoop_four_iff_replaced (link : Bool) (l : List FileRecord) (i : Nat)
    (acc : MainAcc) (h : acc.rc = 4 ↔ 0 < acc.replaced) :
    ((groupLoop link i acc l).rc = 4 ↔ 0 < (groupLoop link i acc l).replaced) := by
  induction l generalizing i acc with
  | nil => simpa [groupLoop] using h
  | cons r rest ih =>
    rw [groupLoop]
    refine ih (i + 1) (memberStep link i acc r) ?_
    rw [memberStep_rc_four, memberStep_replaced, h]
    by_cases hc : i ≠ 0 ∧ link = true <;> simp [hc]

theorem groupLoop_adm (link : Bool) (l : List FileRecord) (i : Nat) (acc : MainAcc)
    (h : acc.rc = 0 ∨ acc.rc = 2 ∨ acc.rc = 4) :
    (groupLoop link i acc l).rc = 0 ∨ (groupLoop link i acc l).rc = 2 ∨
      (groupLoop link i acc l).rc = 4 := by
  induction l generalizing i acc with
  | nil => simpa [groupLoop] using h
  | cons r rest ih =>
    rw [groupLoop]
    exact ih (i + 1) _ (memberStep_adm link i acc r h)

theorem groupLoop_wasted_pos (link : Bool) (l : List FileRecord) (i : Nat) (acc : MainAcc)
    (hi : i ≠ 0) :
    (groupLoop link i acc l).wasted = acc.wasted + (l.map (fun r => r.Size)).sum := by
  induction l generalizing i acc with
  | nil => simp [groupLoop]
  | cons r rest ih =>
    rw [groupLoop, ih (i + 1) _ (Nat.succ_ne_zero i), memberStep_wasted, if_neg hi]
    simp [Nat.add_assoc]

theorem groupLoop_wasted_zero (link : Bool) (l : List FileRecord) (acc : MainAcc) :
    (groupLoop link 0 acc l).wasted = acc.wasted + ((l.drop 1).map (fun r => r.Size)).sum := by
  cases l with
  | nil => simp [groupLoop]
  | cons r rest =>
    rw [groupLoop, groupLoop_wasted_pos link rest 1 _ (by omega), memberStep_wasted]
    simp

theorem mainFold_rc_zero (link : Bool) (dm : List (String × List FileRecord)) (acc : MainAcc) :
    ((dm.foldl (fun acc p => groupLoop link 0 acc p.2) acc).rc = 0 ↔
      acc.rc = 0 ∧ ∀ p ∈ dm, p.2 = []) := by
  induction dm generalizing acc with
  | nil => simp
  | cons q rest ih =>
    rw [List.foldl_cons, ih]
    rw [groupLoop_rc_zero]
    constructor
    · rintro ⟨⟨hz, hq⟩, hrest⟩
      exact ⟨hz, fun p hp => by
        rcases List.mem_cons.mp hp with hpq | hpr
        · rw [hpq]; exact hq
        · exact hrest p hpr⟩
    · rintro ⟨hz, hall⟩
      exact ⟨⟨hz, hall q (List.mem_cons_self q rest)⟩,
        fun p hp => hall p (List.mem_cons_of_mem q hp)⟩

theorem mainFold_four_iff_replaced (link : Bool) (dm : List (String × List FileRecord))
    (acc : MainAcc) (h : acc.rc = 4 ↔ 0 < acc.replaced) :
    ((dm.foldl (fun acc p => groupLoop link 0 acc p.2) acc).rc = 4 ↔
      0 < (dm.foldl (fun acc p => groupLoop link 0 acc p.2) acc).replaced) := by
  induction dm generalizing acc with
  | nil => simpa using h
  | cons q rest ih =>
    rw [List.foldl_cons]
    exact ih _ (groupLoop_four_iff_replaced link q.2 0 acc h)

theorem mainFold_adm (link : Bool) (dm : List (String × List FileRecord)) (acc : MainAcc)
    (h : acc.rc = 0 ∨ acc.rc = 2 ∨ acc.rc = 4) :
    (dm.foldl (fun acc p => groupLoop link 0 acc p.2) acc).rc = 0 ∨
      (dm.foldl (fun acc p => groupLoop link 0 acc p.2) acc).rc = 2 ∨
      (dm.foldl (fun acc p => groupLoop link 0 acc p.2) acc).rc = 4 := by
  induction dm generalizing acc with
  | nil => simpa using h
  | cons q rest ih =>
    rw [List.foldl_cons]
    exact ih _ (groupLoop_adm link q.2 0 acc h)

theorem truthyGet_ne_empty (e : OldInfo) (a d : String) (h : truthyGet e a = some d) :
    d ≠ "" := by
  unfold truthyGet at h
  cases hl : lookupAssoc e.digests a with
  | none => rw [hl] at h; cases h
  | some x =>
    by_cases hx : x = ""
    · simp only [hl, if_pos hx] at h
      cases h
    · simp only [hl, if_neg hx] at h
      cases h
      exact hx

theorem truthyGet_toOldInfo (prev : FileRecord) (a d : String)
    (hd : getDigest prev a = some d) (hne : d ≠ "") :
    truthyGet prev.toOldInfo a = some d := by
  unfold truthyGet FileRecord.toOldInfo
  simp only [show lookupAssoc prev.digests a = some d from hd, if_neg hne]

theorem hashStepBody_err (registry algorithmsOpt : List String) (defaultAlgo : String)
    (fs : FS) (oldMap : List (String × OldInfo)) (st : HashState) (r : FileRecord)
    (msg : String) (herr : algorithmsResolve registry algorithmsOpt defaultAlgo = .error msg) :
    hashStepBody registry algorithmsOpt defaultAlgo fs oldMap st r = .error msg := by
  unfold hashStepBody
  rw [herr]

theorem hashStepBody_ok_some (registry algorithmsOpt : List String) (defaultAlgo : String)
    (fs : FS) (oldMap : List (String × OldInfo)) (st : HashState) (r : FileRecord)
    (algos : List String)
    (halgos : algorithmsResolve registry algorithmsOpt defaultAlgo = .ok algos)
    (hfile : fs.isfile r.Path = true) (st' : HashState) (olog : Option ProcLog)
    (h : hashStepBody registry algorithmsOpt defaultAlgo fs oldMap st r = .ok (st', olog)) :
    ∃ log, olog = some log ∧
      log.computed = (reuseLoop (effOld oldMap st r) algos r).2 ∧
      (log.computed = [] →
        log.record = (reuseLoop (effOld oldMap st r) algos r).1 ∧ st'.inumMap = st.inumMap) ∧
      (log.computed ≠ [] →
        log.record =
          computeDigests fs r.Path (reuseLoop (effOld oldMap st r) algos r).2
            (reuseLoop (effOld oldMap st r) algos r).1 ∧
        st'.inumMap = updateAssoc st.inumMap r.Inum log.record) := by
  unfold hashStepBody at h
  rw [halgos] at h
  simp only [hfile] at h
  by_cases hrem : (reuseLoop (effOld oldMap st r) algos r).2 = []
  · rw [if_pos hrem] at h
    by_cases hmc : (matchCache oldMap r).isSome
    · simp only [hmc, if_pos rfl] at h
      cases h
      exact ⟨⟨(reuseLoop (effOld oldMap st r) algos r).1, []⟩, rfl, hrem.symm,
        fun _ => ⟨rfl, rfl⟩, fun hc => absurd rfl hc⟩
    · simp only [hmc] at h
      rw [if_neg (by simp [hmc])] at h
      cases h
      exact ⟨⟨(reuseLoop (effOld oldMap st r) algos r).1, []⟩, rfl, hrem.symm,
        fun _ => ⟨rfl, rfl⟩, fun hc => absurd rfl hc⟩
  · rw [if_neg hrem] at h
    cases h
    refine ⟨_, rfl, rfl, fun hc => absurd hc hrem, fun _ => ⟨rfl, rfl⟩⟩

theorem hashStepBody_no_none (registry algorithmsOpt : List String) (defaultAlgo : String)
    (fs : FS) (oldMap : List (String × OldInfo)) (st : HashState) (r : FileRecord)
    (st' : HashState)
    (h : hashStepBody registry algorithmsOpt defaultAlgo fs oldMap st r = .ok (st', none)) :
    False := by
  unfold hashStepBody at h
  cases halg : algorithmsResolve registry algorithmsOpt defaultAlgo with
  | error e => rw [halg] at h; cases h
  | ok algos =>
    rw [halg] at h
    by_cases hfile : fs.isfile r.Path = false
    · simp only [hfile, if_pos rfl] at h
      cases h
    · simp only [hfile] at h
      rw [if_neg (by simp [hfile])] at h
      by_cases hrem : (reuseLoop (effOld oldMap st r) algos r).2 = []
      · rw [if_pos hrem] at h
        split at h <;> cases h
      · rw [if_neg hrem] at h
        cases h

theorem hashStep_ok_none (opts : HashOpts) (registry algorithmsOpt : List String)
    (defaultAlgo : String) (fs : FS) (oldMap : List (String × OldInfo)) (st : HashState)
    (r : FileRecord) (st' : HashState)
    (h : hashStep opts registry algorithmsOpt defaultAlgo fs oldMap st r = .ok (st', none)) :
    st' = st ∧ fs.isfile r.Path = false ∧ opts.ignoreVanished = true := by
  unfold hashStep at h
  by_cases h1 : fs.isfile r.Path = false ∧ opts.ignoreVanished = true
  · rw [if_pos h1] at h
    cases h
    exact ⟨rfl, h1⟩
  · rw [if_neg h1] at h
    by_cases h2 : fs.isfile r.Path = false ∧ opts.fatalVanished = true
    · rw [if_pos h2] at h
      cases h
    · rw [if_neg h2] at h
      exact absurd h (fun hc => hashStepBody_no_none _ _ _ _ _ _ _ _ hc)

theorem hashStep_ok_some (opts : HashOpts) (registry algorithmsOpt : List String)
    (defaultAlgo : String) (fs : FS) (oldMap : List (String × OldInfo)) (st : HashState)
    (r : FileRecord) (st' : HashState) (log : ProcLog)
    (h : hashStep opts registry algorithmsOpt defaultAlgo fs oldMap st r = .ok (st', some log)) :
    fs.isfile r.Path = true ∧
      hashStepBody registry algorithmsOpt defaultAlgo fs oldMap st r = .ok (st', some log) := by
  unfold hashStep at h
  by_cases hf : fs.isfile r.Path = true
  · refine ⟨hf, ?_⟩
    rw [if_neg (by simp [hf]), if_neg (by simp [hf])] at h
    exact h
  · exfalso
    have hff : fs.isfile r.Path = false := by
      cases hb : fs.isfile r.Path
      · rfl
      · exact absurd hb hf
    by_cases hi : opts.ignoreVanished = true
    · rw [if_pos ⟨hff, hi⟩] at h
      cases h
    · rw [if_neg (fun hc => hi hc.2)] at h
      by_cases hfa : opts.fatalVanished = true
      · rw [if_pos ⟨hff, hfa⟩] at h
        cases h
      · rw [if_neg (fun hc => hfa hc.2)] at h
        unfold hashStepBody at h
        cases halg : algorithmsResolve registry algorithmsOpt defaultAlgo with
        | error e => rw [halg] at h; cases h
        | ok algos =>
          rw [halg] at h
          simp only [hff, if_pos rfl] at h
          cases h

theorem reusable_of_good (algos : List String) (prev r : FileRecord) (a : String)
    (hgood : goodRec algos prev) (ha : a ∈ algos) (hsz : prev.Size = r.Size) :
    reusable (some prev.toOldInfo) r.Size a = true := by
  obtain ⟨d, hd, hne⟩ := hgood a ha
  have ht := truthyGet_toOldInfo prev a d hd hne
  have hs : prev.toOldInfo.Size = some r.Size := by
    rw [FileRecord.toOldInfo, hsz]
  simp [reusable, ht, hs]

theorem step_record_fields (opts : HashOpts) (registry algorithmsOpt : List String)
    (defaultAlgo : String) (fs : FS) (oldMap : List (String × OldInfo)) (st : HashState)
    (r : FileRecord) (st' : HashState) (log : ProcLog) (algos : List String)
    (halgos : algorithmsResolve registry algorithmsOpt defaultAlgo = .ok algos)
    (hstep : hashStep opts registry algorithmsOpt defaultAlgo fs oldMap st r =
      .ok (st', some log)) :
    log.record.Inum = r.Inum ∧ log.record.Size = r.Size ∧ log.record.Path = r.Path := by
  obtain ⟨hfile, hbody⟩ := hashStep_ok_some _ _ _ _ _ _ _ _ _ _ hstep
  obtain ⟨log2, hlog2, hcomp, hnil, hne⟩ :=
    hashStepBody_ok_some _ _ _ _ _ _ _ _ halgos hfile _ _ hbody
  cases hlog2
  by_cases hc : log.computed = []
  · obtain ⟨hrec, _⟩ := hnil hc
    rw [hrec]
    exact ⟨(reuseLoop_fields _ _ _).2.1, (reuseLoop_fields _ _ _).1,
      (reuseLoop_fields _ _ _).2.2⟩
  · obtain ⟨hrec, _⟩ := hne hc
    rw [hrec]
    refine ⟨?_, ?_, ?_⟩
    · rw [(computeDigests_fields _ _ _ _).2.1]
      exact (reuseLoop_fields _ _ _).2.1
    · rw [(computeDigests_fields _ _ _ _).1]
      exact (reuseLoop_fields _ _ _).1
    · rw [(computeDigests_fields _ _ _ _).2.2]
      exact (reuseLoop_fields _ _ _).2.2

theorem step_good (opts : HashOpts) (registry algorithmsOpt : List String)
    (defaultAlgo : String) (fs : FS) (oldMap : List (String × OldInfo)) (st : HashState)
    (r : FileRecord) (st' : HashState) (log : ProcLog) (algos : List String)
    (halgos : algorithmsResolve registry algorithmsOpt defaultAlgo = .ok algos)
    (h1 : ∀ a p, fs.digest a p ≠ "")
    (hstep : hashStep opts registry algorithmsOpt defaultAlgo fs oldMap st r =
      .ok (st', some log)) :
    goodRec algos log.record := by
  obtain ⟨hfile, hbody⟩ := hashStep_ok_some _ _ _ _ _ _ _ _ _ _ hstep
  obtain ⟨log2, hlog2, hcomp, hnil, hne⟩ :=
    hashStepBody_ok_some _ _ _ _ _ _ _ _ halgos hfile _ _ hbody
  cases hlog2
  have hnd : algos.Nodup := algorithmsResolve_nodup _ _ _ _ halgos
  intro a ha
  by_cases hre : reusable (effOld oldMap st r) r.Size a = true
  · obtain ⟨e, d, heff, htg, hget⟩ := reuseLoop_getDigest_reused (effOld oldMap st r) algos r a
      hnd ha hre
    have hdnn : d ≠ "" := truthyGet_ne_empty e a d htg
    have hnotrem : a ∉ (reuseLoop (effOld oldMap st r) algos r).2 := by
      rw [reuseLoop_remaining]
      intro hc
      rcases List.mem_filter.mp hc with ⟨_, hc2⟩
      rw [hre] at hc2
      cases hc2
    by_cases hc : log.computed = []
    · obtain ⟨hrec, _⟩ := hnil hc
      rw [hrec]
      exact ⟨d, hget, hdnn⟩
    · obtain ⟨hrec, _⟩ := hne hc
      rw [hrec, computeDigests_getDigest_notMem _ _ _ _ _ hnotrem]
      exact ⟨d, hget, hdnn⟩
  · have hre2 : reusable (effOld oldMap st r) r.Size a = false := by
      cases hb : reusable (effOld oldMap st r) r.Size a
      · rfl
      · exact absurd hb hre
    have hrem : a ∈ (reuseLoop (effOld oldMap st r) algos r).2 := by
      rw [reuseLoop_remaining]
      exact List.mem_filter.mpr ⟨ha, by rw [hre2]; rfl⟩
    have hcne : log.computed ≠ [] := by
      intro hc
      rw [hcomp] at hc
      rw [hc] at hrem
      cases hrem
    obtain ⟨hrec, _⟩ := hne hcne
    have hrnd : (reuseLoop (effOld oldMap st r) algos r).2.Nodup := by
      rw [reuseLoop_remaining]
      exact hnd.filter _
    rw [hrec, computeDigests_getDigest_mem _ _ _ _ _ hrnd hrem]
    exact ⟨fs.digest a r.Path, rfl, h1 a r.Path⟩

theorem step_hasAll (opts : HashOpts) (registry algorithmsOpt : List String)
    (defaultAlgo : String) (fs : FS) (oldMap : List (String × OldInfo)) (st : HashState)
    (r : FileRecord) (st' : HashState) (log : ProcLog) (algos : List String)
    (halgos : algorithmsResolve registry algorithmsOpt defaultAlgo = .ok algos)
    (hstep : hashStep opts registry algorithmsOpt defaultAlgo fs oldMap st r =
      .ok (st', some log)) :
    hasAllAlgos algos log.record := by
  obtain ⟨hfile, hbody⟩ := hashStep_ok_some _ _ _ _ _ _ _ _ _ _ hstep
  obtain ⟨log2, hlog2, hcomp, hnil, hne⟩ :=
    hashStepBody_ok_some _ _ _ _ _ _ _ _ halgos hfile _ _ hbody
  cases hlog2
  have hnd : algos.Nodup := algorithmsResolve_nodup _ _ _ _ halgos
  intro a ha
  by_cases hre : reusable (effOld oldMap st r) r.Size a = true
  · obtain ⟨e, d, heff, htg, hget⟩ := reuseLoop_getDigest_reused (effOld oldMap st r) algos r a
      hnd ha hre
    have hnotrem : a ∉ (reuseLoop (effOld oldMap st r) algos r).2 := by
      rw [reuseLoop_remaining]
      intro hc
      rcases List.mem_filter.mp hc with ⟨_, hc2⟩
      rw [hre] at hc2
      cases hc2
    by_cases hc : log.computed = []
    · obtain ⟨hrec, _⟩ := hnil hc
      rw [hrec, hget]
      rfl
    · obtain ⟨hrec, _⟩ := hne hc
      rw [hrec, computeDigests_getDigest_notMem _ _ _ _ _ hnotrem, hget]
      rfl
  · have hre2 : reusable (effOld oldMap st r) r.Size a = false := by
      cases hb : reusable (effOld oldMap st r) r.Size a
      · rfl
      · exact absurd hb hre
    have hrem : a ∈ (reuseLoop (effOld oldMap st r) algos r).2 := by
      rw [reuseLoop_remaining]
      exact List.mem_filter.mpr ⟨ha, by rw [hre2]; rfl⟩
    have hcne : log.computed ≠ [] := by
      intro hc
      rw [hcomp] at hc
      rw [hc] at hrem
      cases hrem
    obtain ⟨hrec, _⟩ := hne hcne
    have hrnd : (reuseLoop (effOld oldMap st r) algos r).2.Nodup := by
      rw [reuseLoop_remaining]
      exact hnd.filter _
    rw [hrec, computeDigests_getDigest_mem _ _ _ _ _ hrnd hrem]
    rfl

theorem step_computed_digest (opts : HashOpts) (registry algorithmsOpt : List String)
    (defaultAlgo : String) (fs : FS) (oldMap : List (String × OldInfo)) (st : HashState)
    (r : FileRecord) (st' : HashState) (log : ProcLog) (algos : List String)
    (halgos : algorithmsResolve registry algorithmsOpt defaultAlgo = .ok algos)
    (hstep : hashStep opts registry algorithmsOpt defaultAlgo fs oldMap st r =
      .ok (st', some log)) :
    ∀ a ∈ log.computed, getDigest log.record a = some (fs.digest a r.Path) := by
  obtain ⟨hfile, hbody⟩ := hashStep_ok_some _ _ _ _ _ _ _ _ _ _ hstep
  obtain ⟨log2, hlog2, hcomp, hnil, hne⟩ :=
    hashStepBody_ok_some _ _ _ _ _ _ _ _ halgos hfile _ _ hbody
  cases hlog2
  have hnd : algos.Nodup := algorithmsResolve_nodup _ _ _ _ halgos
  intro a ha
  have hcne : log.computed ≠ [] := by
    intro hc
    rw [hc] at ha
    cases ha
  obtain ⟨hrec, _⟩ := hne hcne
  have hrnd : (reuseLoop (effOld oldMap st r) algos r).2.Nodup := by
    rw [reuseLoop_remaining]
    exact hnd.filter _
  rw [hcomp] at ha
  rw [hrec, computeDigests_getDigest_mem _ _ _ _ _ hrnd ha]

theorem step_inum_hit (opts : HashOpts) (registry algorithmsOpt : List String)
    (defaultAlgo : String) (fs : FS) (oldMap : List (String × OldInfo)) (st : HashState)
    (r prev : FileRecord) (st' : HashState) (log : ProcLog) (algos : List String)
    (halgos : algorithmsResolve registry algorithmsOpt defaultAlgo = .ok algos)
    (hprev : lookupAssoc st.inumMap r.Inum = some prev)
    (hgood : goodRec algos prev) (hsz : prev.Size = r.Size)
    (hstep : hashStep opts registry algorithmsOpt defaultAlgo fs oldMap st r =
      .ok (st', some log)) :
    log.computed = [] ∧ st'.inumMap = st.inumMap ∧
      ∀ a ∈ algos, getDigest log.record a = getDigest prev a := by
  obtain ⟨hfile, hbody⟩ := hashStep_ok_some _ _ _ _ _ _ _ _ _ _ hstep
  obtain ⟨log2, hlog2, hcomp, hnil, hne⟩ :=
    hashStepBody_ok_some _ _ _ _ _ _ _ _ halgos hfile _ _ hbody
  cases hlog2
  have hnd : algos.Nodup := algorithmsResolve_nodup _ _ _ _ halgos
  have heff : effOld oldMap st r = some prev.toOldInfo := by
    unfold effOld
    rw [hprev]
  have hallre : ∀ a ∈ algos, reusable (effOld oldMap st r) r.Size a = true := by
    rw [heff]
    intro a ha
    exact reusable_of_good algos prev r a hgood ha hsz
  have hrem : (reuseLoop (effOld oldMap st r) algos r).2 = [] := by
    rw [reuseLoop_remaining]
    refine List.filter_eq_nil_iff.mpr ?_
    intro a ha
    rw [hallre a ha]
    simp
  have hc : log.computed = [] := by
    rw [hcomp, hrem]
  obtain ⟨hrec, hmap⟩ := hnil hc
  refine ⟨hc, hmap, ?_⟩
  intro a ha
  obtain ⟨e, d, heffe, htg, hget⟩ :=
    reuseLoop_getDigest_reused (effOld oldMap st r) algos r a hnd ha (hallre a ha)
  rw [heff] at heffe
  cases heffe
  obtain ⟨d0, hd0, hne0⟩ := hgood a ha
  have htg0 : truthyGet prev.toOldInfo a = some d0 := truthyGet_toOldInfo prev a d0 hd0 hne0
  rw [htg0] at htg
  cases htg
  rw [hrec, hget, hd0]

theorem hlInv_step (opts : HashOpts) (registry algorithmsOpt : List String)
    (defaultAlgo : String) (fs : FS) (oldMap : List (String × OldInfo))
    (inputs : List FileRecord) (algos : List String) (st : HashState) (logs : List ProcLog)
    (r : FileRecord) (st' : HashState) (log : ProcLog)
    (halgos : algorithmsResolve registry algorithmsOpt defaultAlgo = .ok algos)
    (h1 : ∀ a p, fs.digest a p ≠ "")
    (h2 : ∀ x ∈ inputs, ∀ y ∈ inputs, x.Inum = y.Inum → x.Size = y.Size)
    (hr : r ∈ inputs) (hinv : hlInv fs inputs algos st logs)
    (hstep : hashStep opts registry algorithmsOpt defaultAlgo fs oldMap st r =
      .ok (st', some log)) :
    hlInv fs inputs algos st' (logs ++ [log]) := by
  obtain ⟨hpw, hB, hC, hD⟩ := hinv
  obtain ⟨hInum, hSize, hPath⟩ :=
    step_record_fields _ _ _ _ _ _ _ _ _ _ _ halgos hstep
  have hgoodlog := step_good _ _ _ _ _ _ _ _ _ _ _ halgos h1 hstep
  obtain ⟨hfile, hbody⟩ := hashStep_ok_some _ _ _ _ _ _ _ _ _ _ hstep
  obtain ⟨log2, hlog2, hcomp, hnil, hne⟩ :=
    hashStepBody_ok_some _ _ _ _ _ _ _ _ halgos hfile _ _ hbody
  cases hlog2
  have hkey : ∀ l ∈ logs, hlR algos l log := by
    intro l hl hlc hinum
    have hmapl := hB l hl hlc
    have hinum2 : l.record.Inum = r.Inum := by rw [hinum, hInum]
    rw [hinum2] at hmapl
    obtain ⟨_, hgoodl, orig, horig, hoinum, hosize⟩ := hC _ _ hmapl
    have hszlr : l.record.Size = r.Size := by
      rw [hosize]
      exact h2 orig horig r hr hoinum
    obtain ⟨hcz, _, hdig⟩ :=
      step_inum_hit _ _ _ _ _ _ _ _ _ _ _ _ halgos hmapl hgoodl hszlr hstep
    exact ⟨hcz, hdig⟩
  refine ⟨?_, ?_, ?_, ?_⟩
  · rw [List.pairwise_append]
    refine ⟨hpw, List.pairwise_singleton _ _, ?_⟩
    intro l hl l' hl'
    rw [List.mem_singleton] at hl'
    subst hl'
    exact hkey l hl
  · intro l hl hlc
    rcases List.mem_append.mp hl with hlold | hlnew
    · by_cases hcnew : log.computed = []
      · obtain ⟨_, hmapeq⟩ := hnil hcnew
        rw [hmapeq]
        exact hB l hlold hlc
      · obtain ⟨_, hmapeq⟩ := hne hcnew
        rw [hmapeq, lookupAssoc_updateAssoc]
        by_cases hk : r.Inum = l.record.Inum
        · exfalso
          have hrel := hkey l hlold hlc (by rw [hInum, hk])
          exact hcnew hrel.1
        · rw [if_neg hk]
          exact hB l hlold hlc
    · rw [List.mem_singleton] at hlnew
      subst hlnew
      obtain ⟨_, hmapeq⟩ := hne hlc
      rw [hmapeq, lookupAssoc_updateAssoc, if_pos hInum.symm]
  · intro k q hlk
    by_cases hcnew : log.computed = []
    · obtain ⟨_, hmapeq⟩ := hnil hcnew
      rw [hmapeq] at hlk
      exact hC k q hlk
    · obtain ⟨_, hmapeq⟩ := hne hcnew
      rw [hmapeq, lookupAssoc_updateAssoc] at hlk
      by_cases hk : r.Inum = k
      · rw [if_pos hk] at hlk
        cases hlk
        exact ⟨by rw [hInum, hk], hgoodlog, r, hr, hk, hSize⟩
      · rw [if_neg hk] at hlk
        exact hC k q hlk
  · intro l hl a ha
    rcases List.mem_append.mp hl with hlold | hlnew
    · exact hD l hlold a ha
    · rw [List.mem_singleton] at hlnew
      subst hlnew
      rw [hPath]
      exact step_computed_digest _ _ _ _ _ _ _ _ _ _ _ halgos hstep a ha

theorem hashRun_hlInv (opts : HashOpts) (registry algorithmsOpt : List String)
    (defaultAlgo : String) (fs : FS) (oldMap : List (String × OldInfo))
    (inputs : List FileRecord) (algos : List String)
    (halgos : algorithmsResolve registry algorithmsOpt defaultAlgo = .ok algos)
    (h1 : ∀ a p, fs.digest a p ≠ "")
    (h2 : ∀ x ∈ inputs, ∀ y ∈ inputs, x.Inum = y.Inum → x.Size = y.Size) :
    ∀ (rest : List FileRecord) (st : HashState) (logs : List ProcLog),
      (∀ x ∈ rest, x ∈ inputs) → hlInv fs inputs algos st logs →
      (hashRun opts registry algorithmsOpt defaultAlgo fs oldMap rest st logs).error = none →
      hlInv fs inputs algos
        (hashRun opts registry algorithmsOpt defaultAlgo fs oldMap rest st logs).st
        (hashRun opts registry algorithmsOpt defaultAlgo fs oldMap rest st logs).logs := by
  intro rest
  induction rest with
  | nil =>
    intro st logs _ hinv _
    simpa [hashRun] using hinv
  | cons r rest ih =>
    intro st logs hmem hinv herr
    cases hstep : hashStep opts registry algorithmsOpt defaultAlgo fs oldMap st r with
    | error e =>
      rw [hashRun, hstep] at herr
      cases herr
    | ok p =>
      obtain ⟨st', olog⟩ := p
      cases olog with
      | none =>
        obtain ⟨hst, _, _⟩ := hashStep_ok_none _ _ _ _ _ _ _ _ _ hstep
        subst hst
        rw [hashRun, hstep] at herr ⊢
        exact ih st' logs (fun x hx => hmem x (List.mem_cons_of_mem r hx)) hinv herr
      | some log =>
        rw [hashRun, hstep] at herr ⊢
        exact ih st' (logs ++ [log]) (fun x hx => hmem x (List.mem_cons_of_mem r hx))
          (hlInv_step opts registry algorithmsOpt defaultAlgo fs oldMap inputs algos st logs
            r st' log halgos h1 h2 (hmem r (List.mem_cons_self r rest)) hinv hstep)
          herr

theorem hashRun_hasAll (opts : HashOpts) (registry algorithmsOpt : List String)
    (defaultAlgo : String) (fs : FS) (oldMap : List (String × OldInfo)) (algos : List String)
    (halgos : algorithmsResolve registry algorithmsOpt defaultAlgo = .ok algos) :
    ∀ (rest : List FileRecord) (st : HashState) (logs : List ProcLog),
      (∀ l ∈ logs, hasAllAlgos algos l.record) →
      (hashRun opts registry algorithmsOpt defaultAlgo fs oldMap rest st logs).error = none →
      ∀ l ∈ (hashRun opts registry algorithmsOpt defaultAlgo fs oldMap rest st logs).logs,
        hasAllAlgos algos l.record := by
  intro rest
  induction rest with
  | nil =>
    intro st logs hall _
    simpa [hashRun] using hall
  | cons r rest ih =>
    intro st logs hall herr
    cases hstep : hashStep opts registry algorithmsOpt defaultAlgo fs oldMap st r with
    | error e =>
      rw [hashRun, hstep] at herr
      cases herr
    | ok p =>
      obtain ⟨st', olog⟩ := p
      cases olog with
      | none =>
        rw [hashRun, hstep] at herr ⊢
        exact ih st' logs hall herr
      | some log =>
        rw [hashRun, hstep] at herr ⊢
        refine ih st' (logs ++ [log]) ?_ herr
        intro l hl
        rcases List.mem_append.mp hl with hlold | hlnew
        · exact hall l hlold
        · rw [List.mem_singleton] at hlnew
          subst hlnew
          exact step_hasAll _ _ _ _ _ _ _ _ _ _ _ halgos hstep

theorem hashRun_algosErr (opts : HashOpts) (registry algorithmsOpt : List String)
    (defaultAlgo : String) (fs : FS) (oldMap : List (String × OldInfo)) (msg : String)
    (herr : algorithmsResolve registry algorithmsOpt defaultAlgo = .error msg) :
    ∀ (rest : List FileRecord) (st : HashState) (logs : List ProcLog),
      (hashRun opts registry algorithmsOpt defaultAlgo fs oldMap rest st logs).st = st ∧
      (hashRun opts registry algorithmsOpt defaultAlgo fs oldMap rest st logs).logs = logs ∧
      ((hashRun opts registry algorithmsOpt defaultAlgo fs oldMap rest st logs).error = none ↔
        ∀ r ∈ rest, fs.isfile r.Path = false ∧ opts.ignoreVanished = true) := by
  intro rest
  induction rest with
  | nil =>
    intro st logs
    refine ⟨rfl, rfl, ?_⟩
    simp [hashRun]
  | cons r rest ih =>
    intro st logs
    by_cases hdrop : fs.isfile r.Path = false ∧ opts.ignoreVanished = true
    · have hstep : hashStep opts registry algorithmsOpt defaultAlgo fs oldMap st r =
          .ok (st, none) := by
        unfold hashStep
        rw [if_pos hdrop]
      rw [hashRun, hstep]
      obtain ⟨hst, hlogs, hiff⟩ := ih st logs
      refine ⟨hst, hlogs, ?_⟩
      rw [hiff]
      constructor
      · intro hrest x hx
        rcases List.mem_cons.mp hx with hxr | hxrest
        · subst hxr
          exact hdrop
        · exact hrest x hxrest
      · intro hallx x hx
        exact hallx x (List.mem_cons_of_mem r hx)
    · have hstep : ∃ e, hashStep opts registry algorithmsOpt defaultAlgo fs oldMap st r =
          .error e := by
        unfold hashStep
        rw [if_neg hdrop]
        by_cases hfat : fs.isfile r.Path = false ∧ opts.fatalVanished = true
        · rw [if_pos hfat]
          exact ⟨_, rfl⟩
        · rw [if_neg hfat]
          exact ⟨msg, hashStepBody_err _ _ _ _ _ _ _ _ herr⟩
      obtain ⟨e, hstep⟩ := hstep
      rw [hashRun, hstep]
      refine ⟨rfl, rfl, ?_⟩
      simp only [Option.some_ne_none, false_iff]
      intro hc
      exact hdrop (hc r (List.mem_cons_self r rest))

theorem mainLoop_eq (link : Bool) (dm : List (String × List FileRecord)) :
    mainLoop link dm = dm.foldl (fun acc p => groupLoop link 0 acc p.2) ⟨0, 0, 0⟩ := rfl

/-- Claim C1: for every fully hashed record list, when several records
share the same physical identity, duplicates_map keeps only the first such
record in each digest bucket and discards the later ones, so each physical
file is counted exactly once and the wasted-space total never includes a
hardlinked copy twice. Formalised: each emitted group is exactly the
first-occurrence-per-inode collapse of its bucket (a sublist of the bucket
with pairwise distinct inodes, containing the first record of every inode
run), and the wasted-space contribution of a group is the sum of the sizes
of its members past the first, which have pairwise distinct inodes. -/
theorem C1_duplicates_collapse_first (hashAlgorithm : String) (records : List FileRecord)
    (hm dm : List (String × List FileRecord)) (h : String) (g bucket : List FileRecord)
    (hok : hash_map hashAlgorithm records = .ok hm)
    (hdm : duplicates_map hashAlgorithm records = .ok dm)
    (hg : (h, g) ∈ dm) (hbucket : (h, bucket) ∈ hm) :
    g = collapseInums [] bucket ∧
    List.Sublist g bucket ∧
    (g.map (fun r => r.Inum)).Nodup ∧
    (∀ l1 r l2, bucket = l1 ++ r :: l2 → (∀ x ∈ l1, x.Inum ≠ r.Inum) → r ∈ g) ∧
    (∀ link, (mainLoop link [(h, g)]).wasted = ((g.drop 1).map (fun r => r.Size)).sum) := by
  have hdm2 : dm = duplicatesOf hm := by
    unfold duplicates_map at hdm
    simp only [hok] at hdm
    cases hdm
    rfl
  subst hdm2
  obtain ⟨q, hq, hpe, hlen⟩ := (duplicatesOf_mem hm (h, g)).mp hg
  rw [Prod.mk.injEq] at hpe
  obtain ⟨hq1, hg2⟩ := hpe
  have hkeys : (bucketKeys hm).Nodup := by
    unfold hash_map at hok
    exact hashMapGo_keysNodup hashAlgorithm records [] hm (by simp [bucketKeys]) hok
  have hqmem : (h, q.2) ∈ hm := by
    rw [hq1]
    exact hq
  have hbq : bucket = q.2 := assoc_bucket_unique hm hkeys h bucket q.2 hbucket hqmem
  rw [← hbq] at hg2
  refine ⟨hg2, ?_, ?_, ?_, ?_⟩
  · rw [hg2]
    exact collapseInums_sublist [] bucket
  · rw [hg2]
    exact collapseInums_nodup [] bucket
  · intro l1 r l2 heq hfirst
    rw [hg2, heq]
    exact collapseInums_first [] l1 r l2 (by simp) hfirst
  · intro link
    rw [mainLoop_eq, List.foldl_cons, List.foldl_nil, groupLoop_wasted_zero]
    simp

/-- Claim C1 witness: the concrete bucket with records w1, w2 and the
hardlink w3 of w2 collapses to the group with w1 and w2 only. -/
theorem C1_duplicates_collapse_first_witness :
    [w1, w2] = collapseInums [] [w1, w2, w3] ∧
    List.Sublist [w1, w2] [w1, w2, w3] ∧
    ([w1, w2].map (fun r => r.Inum)).Nodup ∧
    (∀ l1 r l2, [w1, w2, w3] = l1 ++ r :: l2 → (∀ x ∈ l1, x.Inum ≠ r.Inum) → r ∈ [w1, w2]) ∧
    (∀ link, (mainLoop link [("d", [w1, w2])]).wasted =
      (([w1, w2].drop 1).map (fun r => r.Size)).sum) :=
  C1_duplicates_collapse_first "MD5" wRecords [("d", [w1, w2, w3])] [("d", [w1, w2])] "d"
    [w1, w2] [w1, w2, w3] (by rfl) (by rfl) (by decide) (by decide)

/-- Claim C2: every group returned by duplicates_map contains at least two
records, with pairwise distinct physical identities (inodes) after the
hardlink collapse; a bucket collapsing to one or zero records yields no
group. -/
theorem C2_group_min_two_distinct (hashAlgorithm : String) (records : List FileRecord)
    (dm : List (String × List FileRecord)) (h : String) (g : List FileRecord)
    (hdm : duplicates_map hashAlgorithm records = .ok dm) (hg : (h, g) ∈ dm) :
    2 ≤ g.length ∧ (g.map (fun r => r.Inum)).Nodup := by
  unfold duplicates_map at hdm
  cases hok : hash_map hashAlgorithm records with
  | error e => rw [hok] at hdm; cases hdm
  | ok hm =>
    simp only [hok] at hdm
    cases hdm
    obtain ⟨q, _, hpe, hlen⟩ := (duplicatesOf_mem hm (h, g)).mp hg
    rw [Prod.mk.injEq] at hpe
    rw [hpe.2]
    refine ⟨?_, collapseInums_nodup [] q.2⟩
    omega

/-- Claim C2 witness: the concrete duplicates map on wRecords has one
group of length two with distinct inodes. -/
theorem C2_group_min_two_distinct_witness :
    2 ≤ ([w1, w2] : List FileRecord).length ∧ ([w1, w2].map (fun r => r.Inum)).Nodup :=
  C2_group_min_two_distinct "MD5" wRecords [("d", [w1, w2])] "d" [w1, w2]
    (by rfl) (by decide)

/-- Claim C3: no record with Size zero appears in any bucket of hash_map
or in any group of duplicates_map, even if its digest equals another
file digest. -/
theorem C3_zero_size_excluded (hashAlgorithm : String) (records : List FileRecord)
    (hm dm : List (String × List FileRecord))
    (hok : hash_map hashAlgorithm records = .ok hm)
    (hdm : duplicates_map hashAlgorithm records = .ok dm) :
    (∀ p ∈ hm, ∀ r ∈ p.2, r.Size ≠ 0) ∧ (∀ p ∈ dm, ∀ r ∈ p.2, r.Size ≠ 0) := by
  have hinv : BucketInv hashAlgorithm records hm := by
    unfold hash_map at hok
    exact hashMapGo_inv hashAlgorithm records records [] hm (fun r hr => hr)
      (by intro p hp; cases hp) hok
  have hdm2 : dm = duplicatesOf hm := by
    unfold duplicates_map at hdm
    simp only [hok] at hdm
    cases hdm
    rfl
  subst hdm2
  constructor
  · intro p hp r hr
    exact (hinv p hp r hr).2.1
  · intro p hp r hr
    obtain ⟨q, hq, hpe, _⟩ := (duplicatesOf_mem hm p).mp hp
    have hrq : r ∈ q.2 := by
      rw [hpe] at hr
      exact (collapseInums_sublist [] q.2).subset hr
    exact (hinv q hq r hrq).2.1

/-- Claim C3 witness: concrete instance on a list containing a zero-size
record sharing the digest value of the others; it appears in no bucket and
no group. -/
theorem C3_zero_size_excluded_witness :
    (∀ p ∈ [("d", [w1, w2, w3])], ∀ r ∈ p.2, r.Size ≠ 0) ∧
    (∀ p ∈ [("d", [w1, w2])], ∀ r ∈ p.2, r.Size ≠ 0) :=
  C3_zero_size_excluded "MD5" (wRecords ++ [⟨"z", "/z", "z", 0, 0, 9, [("MD5", "d")]⟩])
    [("d", [w1, w2, w3])] [("d", [w1, w2])] (by rfl) (by rfl)

/-- Claim C7: main returns exit status 0 when no duplicate group is found,
2 when at least one duplicate group is found but no duplicate is replaced,
and 4 when at least one duplicate is actually replaced by a hardlink. -/
theorem C7_exit_codes (hashAlgorithm : String) (records : List FileRecord) (link : Bool)
    (dm : List (String × List FileRecord))
    (hok : duplicates_map hashAlgorithm records = .ok dm) :
    ((mainLoop link dm).rc = 0 ↔ dm = []) ∧
    (dm ≠ [] → (mainLoop link dm).replaced = 0 → (mainLoop link dm).rc = 2) ∧
    (0 < (mainLoop link dm).replaced → (mainLoop link dm).rc = 4) := by
  have hne : ∀ p ∈ dm, p.2 ≠ [] := by
    unfold duplicates_map at hok
    cases hhm : hash_map hashAlgorithm records with
    | error e => rw [hhm] at hok; cases hok
    | ok hm =>
      simp only [hhm] at hok
      cases hok
      intro p hp
      obtain ⟨q, _, hpe, hlen⟩ := (duplicatesOf_mem hm p).mp hp
      rw [hpe]
      intro hc
      simp only at hc
      rw [hc] at hlen
      exact hlen (by simp)
  have hiff0 := mainFold_rc_zero link dm ⟨0, 0, 0⟩
  have hiff4 := mainFold_four_iff_replaced link dm ⟨0, 0, 0⟩ (by simp)
  have hadm := mainFold_adm link dm ⟨0, 0, 0⟩ (Or.inl rfl)
  rw [mainLoop_eq]
  have hc1 : (dm.foldl (fun acc p => groupLoop link 0 acc p.2) ⟨0, 0, 0⟩).rc = 0 ↔ dm = [] := by
    rw [hiff0]
    constructor
    · rintro ⟨_, hall⟩
      cases hdm : dm with
      | nil => rfl
      | cons q rest =>
        exfalso
        exact hne q (by rw [hdm]; exact List.mem_cons_self q rest)
          (hall q (by rw [hdm]; exact List.mem_cons_self q rest))
    · intro hdm
      subst hdm
      exact ⟨rfl, by intro p hp; cases hp⟩
  refine ⟨hc1, ?_, fun hrep => hiff4.mpr hrep⟩
  intro hdmne hrep0
  rcases hadm with h0 | h2 | h4
  · exact absurd (hc1.mp h0) hdmne
  · exact h2
  · rw [hiff4, hrep0] at h4
    cases h4

/-- Claim C7 witness: on the concrete duplicates map with one group and
linking disabled, the loop yields rc 2 and no replacement. -/
theorem C7_exit_codes_witness :
    ((mainLoop false [("d", [w1, w2])]).rc = 0 ↔ ([("d", [w1, w2])] :
      List (String × List FileRecord)) = []) ∧
    (([("d", [w1, w2])] : List (String × List FileRecord)) ≠ [] →
      (mainLoop false [("d", [w1, w2])]).replaced = 0 →
      (mainLoop false [("d", [w1, w2])]).rc = 2) ∧
    (0 < (mainLoop false [("d", [w1, w2])]).replaced →
      (mainLoop false [("d", [w1, w2])]).rc = 4) :=
  C7_exit_codes "MD5" wRecords false [("d", [w1, w2])] (by rfl)

/-- Claim C8 counterexample: the claim says every scan record contains a
device identifier; but two eligible files on different reference devices
(device ids 1 and 2) produce identical records, so no field of the record
carries the device identifier. -/
theorem C8_counterexample_no_device_field :
    scanFileEntry 1 "a" "/a" "a" ⟨1, 7, 10, 0⟩ = scanFileEntry 2 "a" "/a" "a" ⟨2, 7, 10, 0⟩ ∧
    (scanFileEntry 1 "a" "/a" "a" ⟨1, 7, 10, 0⟩).isSome = true ∧ (1 : Nat) ≠ 2 := by
  decide

/-- Claim C8 amended: every FileRecord produced by the scanner for an
eligible regular file contains the relative path, absolute path, base
name, size in bytes, modification time as integer seconds and inode
identifier, and starts with no digests; the device identifier is checked
against the reference device (eligibility) but is not stored in the
record. -/
theorem C8_scan_record_fields_amended (origDev : Nat) (path fullPath name : String)
    (stt : Stat) (r : FileRecord)
    (h : scanFileEntry origDev path fullPath name stt = some r) :
    r.Path = path ∧ r.FullPath = fullPath ∧ r.Name = name ∧ r.Size = stt.size ∧
      r.ModificationTime = stt.mtime ∧ r.Inum = stt.ino ∧ r.digests = [] ∧
      stt.dev = origDev := by
  unfold scanFileEntry at h
  by_cases hd : stt.dev = origDev
  · rw [if_pos hd] at h
    cases h
    exact ⟨rfl, rfl, rfl, rfl, rfl, rfl, rfl, hd⟩
  · rw [if_neg hd] at h
    cases h

/-- Claim C8 witness: the record produced for a concrete eligible file has
exactly the specified field values. -/
theorem C8_scan_record_fields_amended_witness :
    (⟨"a", "/a", "n", 10, 3, 7, []⟩ : FileRecord).Path = "a" ∧
    (⟨"a", "/a", "n", 10, 3, 7, []⟩ : FileRecord).FullPath = "/a" ∧
    (⟨"a", "/a", "n", 10, 3, 7, []⟩ : FileRecord).Name = "n" ∧
    (⟨"a", "/a", "n", 10, 3, 7, []⟩ : FileRecord).Size = (⟨1, 7, 10, 3⟩ : Stat).size ∧
    (⟨"a", "/a", "n", 10, 3, 7, []⟩ : FileRecord).ModificationTime =
      (⟨1, 7, 10, 3⟩ : Stat).mtime ∧
    (⟨"a", "/a", "n", 10, 3, 7, []⟩ : FileRecord).Inum = (⟨1, 7, 10, 3⟩ : Stat).ino ∧
    (⟨"a", "/a", "n", 10, 3, 7, []⟩ : FileRecord).digests = [] ∧
    (⟨1, 7, 10, 3⟩ : Stat).dev = 1 :=
  C8_scan_record_fields_amended 1 "a" "/a" "n" ⟨1, 7, 10, 3⟩ ⟨"a", "/a", "n", 10, 3, 7, []⟩
    (by decide)

/-- Claim C9 counterexample: the claim says all members of a group share
the same Size; but an imported cache can assign the same digest value to
two files of different sizes (each cache entry matching its own file
size), and duplicates_map then emits a group whose members have different
sizes: the code never compares sizes inside a bucket. -/
theorem C9_counterexample_same_digest_sizes :
    (hashFiles ⟨false, false⟩ ["md5"] [] "MD5" wFS c9Cache [c9r1, c9r2]).error = none ∧
    duplicates_map "MD5"
        ((hashFiles ⟨false, false⟩ ["md5"] [] "MD5" wFS c9Cache [c9r1, c9r2]).logs.map
          (fun l => l.record)) =
      .ok [("d", [setDigest c9r1 "MD5" "d", setDigest c9r2 "MD5" "d"])] ∧
    (setDigest c9r1 "MD5" "d").Size ≠ (setDigest c9r2 "MD5" "d").Size :=
  ⟨by decide, by rfl, by decide⟩

/-- Claim C9 amended: in every group produced by duplicates_map, all
members carry the bucket digest value for the default algorithm (so their
digest values agree); the members also share the same Size provided equal
digest values imply equal sizes among the hashed records (the code relies
on digest equality and never compares sizes within a bucket). -/
theorem C9_group_same_digest_amended (hashAlgorithm : String) (records : List FileRecord)
    (hm dm : List (String × List FileRecord)) (h : String) (g : List FileRecord)
    (hok : hash_map hashAlgorithm records = .ok hm)
    (hdm : duplicates_map hashAlgorithm records = .ok dm) (hg : (h, g) ∈ dm) :
    (∀ r ∈ g, getDigest r hashAlgorithm = some h) ∧
    ((∀ x ∈ records, ∀ y ∈ records, ∀ dg, getDigest x hashAlgorithm = some dg →
        getDigest y hashAlgorithm = some dg → x.Size = y.Size) →
      ∀ x ∈ g, ∀ y ∈ g, x.Size = y.Size) := by
  have hinv : BucketInv hashAlgorithm records hm := by
    unfold hash_map at hok
    exact hashMapGo_inv hashAlgorithm records records [] hm (fun r hr => hr)
      (by intro p hp; cases hp) hok
  have hdm2 : dm = duplicatesOf hm := by
    unfold duplicates_map at hdm
    simp only [hok] at hdm
    cases hdm
    rfl
  subst hdm2
  obtain ⟨q, hq, hpe, _⟩ := (duplicatesOf_mem hm (h, g)).mp hg
  rw [Prod.mk.injEq] at hpe
  obtain ⟨hq1, hg2⟩ := hpe
  have hsub : ∀ r ∈ g, r ∈ q.2 := by
    rw [hg2]
    exact fun r hr => (collapseInums_sublist [] q.2).subset hr
  constructor
  · intro r hr
    rw [hq1]
    exact (hinv q hq r (hsub r hr)).1
  · intro hinj x hx y hy
    have hxq := hinv q hq x (hsub x hx)
    have hyq := hinv q hq y (hsub y hy)
    exact hinj x hxq.2.2 y hyq.2.2 q.1 hxq.1 hyq.1

/-- Claim C9 amended witness: on the concrete records, the single group
members both carry digest value d, and under size injectivity of the
digest values they share Size 3. -/
theorem C9_group_same_digest_amended_witness :
    (∀ r ∈ [w1, w2], getDigest r "MD5" = some "d") ∧
    ((∀ x ∈ wRecords, ∀ y ∈ wRecords, ∀ dg, getDigest x "MD5" = some dg →
        getDigest y "MD5" = some dg → x.Size = y.Size) →
      ∀ x ∈ [w1, w2], ∀ y ∈ [w1, w2], x.Size = y.Size) :=
  C9_group_same_digest_amended "MD5" wRecords [("d", [w1, w2, w3])] [("d", [w1, w2])] "d"
    [w1, w2] (by rfl) (by rfl) (by decide)

theorem hashStep_eq_body (opts : HashOpts) (registry algorithmsOpt : List String)
    (defaultAlgo : String) (fs : FS) (oldMap : List (String × OldInfo)) (st : HashState)
    (r : FileRecord) (hfile : fs.isfile r.Path = true) :
    hashStep opts registry algorithmsOpt defaultAlgo fs oldMap st r =
      hashStepBody registry algorithmsOpt defaultAlgo fs oldMap st r := by
  unfold hashStep
  rw [if_neg (by simp [hfile]), if_neg (by simp [hfile])]

theorem hashStepBody_ok_of (registry algorithmsOpt : List String) (defaultAlgo : String)
    (fs : FS) (oldMap : List (String × OldInfo)) (st : HashState) (r : FileRecord)
    (algos : List String)
    (halgos : algorithmsResolve registry algorithmsOpt defaultAlgo = .ok algos)
    (hfile : fs.isfile r.Path = true) :
    ∃ st' log, hashStepBody registry algorithmsOpt defaultAlgo fs oldMap st r =
      .ok (st', some log) := by
  unfold hashStepBody
  simp only [halgos, hfile]
  by_cases hrem : (reuseLoop (effOld oldMap st r) algos r).2 = []
  · rw [if_pos hrem]
    exact ⟨_, _, rfl⟩
  · rw [if_neg hrem]
    exact ⟨_, _, rfl⟩

/-- Claim C4 counterexample: the claim says a matched cache entry with
equal Size has its cached digest copied into the record; but when an
earlier record with the same inode has already been content-hashed, the
hardlink short-circuit replaces the cache match, and the record receives
the freshly computed digest (f1) instead of the cached one (cached), even
though the cache entry matched with equal Size and held the digest. -/
theorem C4_counterexample_hardlink_overrides_cache :
    matchCache c4Cache c4r2 = some c4e ∧
    c4e.Size = some c4r2.Size ∧
    truthyGet c4e "MD5" = some "cached" ∧
    (hashFiles ⟨false, false⟩ ["md5"] [] "MD5" wFS c4Cache [c4r1, c4r2]).error = none ∧
    ((hashFiles ⟨false, false⟩ ["md5"] [] "MD5" wFS c4Cache [c4r1, c4r2]).logs.map
      (fun l => getDigest l.record "MD5")) = [some "f1", some "f1"] ∧
    ("f1" : String) ≠ "cached" := by
  decide

/-- Claim C4 amended: during hash(), for every record matched against an
imported cache entry whose inode is not yet registered in the hardlink
map (no earlier record with the same inode has been content-hashed), and
for every requested algorithm key: if the cached Size equals the record
Size and the cache holds a truthy digest for that key, the cached digest
is copied and that key is not recomputed from content; if the sizes
differ, that key is recomputed from file content. -/
theorem C4_cache_reuse_amended (opts : HashOpts) (registry algorithmsOpt : List String)
    (defaultAlgo : String) (fs : FS) (oldMap : List (String × OldInfo)) (st : HashState)
    (r : FileRecord) (e : OldInfo) (algos : List String) (a d : String)
    (halgos : algorithmsResolve registry algorithmsOpt defaultAlgo = .ok algos)
    (hfile : fs.isfile r.Path = true)
    (hmiss : lookupAssoc st.inumMap r.Inum = none)
    (hmatch : matchCache oldMap r = some e)
    (ha : a ∈ algos) (hd : truthyGet e a = some d) :
    ∃ st' log,
      hashStep opts registry algorithmsOpt defaultAlgo fs oldMap st r = .ok (st', some log) ∧
      (e.Size = some r.Size → a ∉ log.computed ∧ getDigest log.record a = some d) ∧
      (e.Size ≠ some r.Size →
        a ∈ log.computed ∧ getDigest log.record a = some (fs.digest a r.Path)) := by
  obtain ⟨st', log, hbody⟩ :=
    hashStepBody_ok_of registry algorithmsOpt defaultAlgo fs oldMap st r algos halgos hfile
  obtain ⟨log2, hlog2, hcomp, hnil, hne⟩ :=
    hashStepBody_ok_some _ _ _ _ _ _ _ _ halgos hfile _ _ hbody
  cases hlog2
  have heff : effOld oldMap st r = some e := by
    unfold effOld
    simp only [hmiss, hmatch]
  have hnd : algos.Nodup := algorithmsResolve_nodup _ _ _ _ halgos
  have hrnd : (reuseLoop (effOld oldMap st r) algos r).2.Nodup := by
    rw [reuseLoop_remaining]
    exact hnd.filter _
  refine ⟨st', log,
    by rw [hashStep_eq_body opts registry algorithmsOpt defaultAlgo fs oldMap st r hfile]
       exact hbody, ?_, ?_⟩
  · intro hsz
    have hre : reusable (effOld oldMap st r) r.Size a = true := by
      rw [heff]
      simp [reusable, hd, hsz]
    have hnotrem : a ∉ (reuseLoop (effOld oldMap st r) algos r).2 := by
      rw [reuseLoop_remaining]
      intro hc
      rcases List.mem_filter.mp hc with ⟨_, hc2⟩
      rw [hre] at hc2
      cases hc2
    refine ⟨by rw [hcomp]; exact hnotrem, ?_⟩
    obtain ⟨e2, d2, heff2, htg2, hget⟩ :=
      reuseLoop_getDigest_reused (effOld oldMap st r) algos r a hnd ha hre
    rw [heff] at heff2
    cases heff2
    rw [hd] at htg2
    cases htg2
    by_cases hc : log.computed = []
    · obtain ⟨hrec, _⟩ := hnil hc
      rw [hrec]
      exact hget
    · obtain ⟨hrec, _⟩ := hne hc
      rw [hrec, computeDigests_getDigest_notMem _ _ _ _ _ hnotrem]
      exact hget
  · intro hsz
    have hre : reusable (effOld oldMap st r) r.Size a = false := by
      rw [heff]
      simp [reusable, hsz]
    have hrem : a ∈ (reuseLoop (effOld oldMap st r) algos r).2 := by
      rw [reuseLoop_remaining]
      exact List.mem_filter.mpr ⟨ha, by rw [hre]; rfl⟩
    have hcne : log.computed ≠ [] := by
      intro hc
      rw [hcomp] at hc
      rw [hc] at hrem
      cases hrem
    obtain ⟨hrec, _⟩ := hne hcne
    refine ⟨by rw [hcomp]; exact hrem, ?_⟩
    rw [hrec, computeDigests_getDigest_mem _ _ _ _ _ hrnd hrem]

/-- Claim C4 amended witness: for the concrete record c4r2 matched against
its cache entry with equal Size before any same-inode record was hashed,
the cached digest is copied and nothing is recomputed. -/
theorem C4_cache_reuse_amended_witness :
    ∃ st' log,
      hashStep ⟨false, false⟩ ["md5"] [] "MD5" wFS c4Cache ⟨[], [], []⟩ c4r2 =
        .ok (st', some log) ∧
      (c4e.Size = some c4r2.Size → "MD5" ∉ log.computed ∧
        getDigest log.record "MD5" = some "cached") ∧
      (c4e.Size ≠ some c4r2.Size → "MD5" ∈ log.computed ∧
        getDigest log.record "MD5" = some (wFS.digest "MD5" c4r2.Path)) :=
  C4_cache_reuse_amended ⟨false, false⟩ ["md5"] [] "MD5" wFS c4Cache ⟨[], [], []⟩ c4r2 c4e
    ["MD5"] "MD5" "cached" (by rfl) (by decide) (by rfl) (by decide) (by decide) (by decide)

/-- Claim C6 counterexample: the claim says an unrecognized algorithm name
makes the run abort; but the algorithm list is only resolved inside the
per-file hash loop, so with an empty scan the run completes without any
fatal error despite the unrecognized name. -/
theorem C6_counterexample_no_abort_on_empty_scan :
    algorithmsResolve ["md5"] ["bogus"] "MD5" = .error "unknown hash algorithm: bogus" ∧
    (hashFiles ⟨false, false⟩ ["md5"] ["bogus"] "MD5" wFS [] []).error = none :=
  ⟨by rfl, by decide⟩

/-- Claim C6 amended: if the configured algorithm list contains a name the
registry does not recognize, no file is ever opened for content reading
and no record is ever hashed; and the run aborts with a fatal error
unless every scanned record is silently dropped by the ignore-vanished
policy before reaching algorithm resolution (in particular with an empty
scan the bad name goes undetected). -/
theorem C6_unknown_algorithm_amended (opts : HashOpts) (registry algorithmsOpt : List String)
    (defaultAlgo : String) (fs : FS) (oldMap : List (String × OldInfo))
    (records : List FileRecord) (msg : String)
    (herr : algorithmsResolve registry algorithmsOpt defaultAlgo = .error msg) :
    (hashFiles opts registry algorithmsOpt defaultAlgo fs oldMap records).st.opens = [] ∧
    (hashFiles opts registry algorithmsOpt defaultAlgo fs oldMap records).logs = [] ∧
    ((hashFiles opts registry algorithmsOpt defaultAlgo fs oldMap records).error = none ↔
      ∀ r ∈ records, fs.isfile r.Path = false ∧ opts.ignoreVanished = true) := by
  obtain ⟨hst, hlogs, hiff⟩ :=
    hashRun_algosErr opts registry algorithmsOpt defaultAlgo fs oldMap msg herr records
      ⟨[], [], []⟩ []
  refine ⟨?_, hlogs, hiff⟩
  show (hashRun opts registry algorithmsOpt defaultAlgo fs oldMap records
    ⟨[], [], []⟩ []).st.opens = []
  rw [hst]

/-- Claim C6 amended witness: with one visible scanned record and an
unrecognized algorithm name, nothing is opened and the run aborts. -/
theorem C6_unknown_algorithm_amended_witness :
    (hashFiles ⟨false, false⟩ ["md5"] ["bogus"] "MD5" wFS [] [c4r1]).st.opens = [] ∧
    (hashFiles ⟨false, false⟩ ["md5"] ["bogus"] "MD5" wFS [] [c4r1]).logs = [] ∧
    ((hashFiles ⟨false, false⟩ ["md5"] ["bogus"] "MD5" wFS [] [c4r1]).error = none ↔
      ∀ r ∈ [c4r1], wFS.isfile r.Path = false ∧
        (⟨false, false⟩ : HashOpts).ignoreVanished = true) :=
  C6_unknown_algorithm_amended ⟨false, false⟩ ["md5"] ["bogus"] "MD5" wFS [] [c4r1]
    "unknown hash algorithm: bogus" (by rfl)

/-- Claim C10: if hash() returns normally then every surviving record
holds a digest entry for every resolved algorithm key; and provided the
default algorithm name is invariant under lowercasing then uppercasing
(true for every name main can configure, which are all uppercase), the
missing-digest error branch of hash_map() is unreachable on the list
produced by a successful hash(). -/
theorem C10_all_digests_present (opts : HashOpts) (registry algorithmsOpt : List String)
    (defaultAlgo : String) (fs : FS) (oldMap : List (String × OldInfo))
    (records : List FileRecord) (algos : List String)
    (halgos : algorithmsResolve registry algorithmsOpt defaultAlgo = .ok algos)
    (herr : (hashFiles opts registry algorithmsOpt defaultAlgo fs oldMap records).error = none)
    (hup : strUpper (strLower (defaultAlgorithm algorithmsOpt defaultAlgo)) =
      defaultAlgorithm algorithmsOpt defaultAlgo) :
    (∀ l ∈ (hashFiles opts registry algorithmsOpt defaultAlgo fs oldMap records).logs,
      hasAllAlgos algos l.record) ∧
    ∃ hm, hash_map (defaultAlgorithm algorithmsOpt defaultAlgo)
        ((hashFiles opts registry algorithmsOpt defaultAlgo fs oldMap records).logs.map
          (fun l => l.record)) = .ok hm := by
  have hall : ∀ l ∈ (hashFiles opts registry algorithmsOpt defaultAlgo fs oldMap
      records).logs, hasAllAlgos algos l.record :=
    hashRun_hasAll opts registry algorithmsOpt defaultAlgo fs oldMap algos halgos
      records ⟨[], [], []⟩ [] (by intro l hl; cases hl) herr
  refine ⟨hall, ?_⟩
  have hdmem : defaultAlgorithm algorithmsOpt defaultAlgo ∈ algos := by
    have hmem := algorithmsResolve_userMem registry algorithmsOpt defaultAlgo algos halgos
      (defaultAlgorithm algorithmsOpt defaultAlgo)
      (defaultAlgorithm_mem algorithmsOpt defaultAlgo)
    rwa [hup] at hmem
  unfold hash_map
  apply hashMapGo_total
  intro r hr
  rcases List.mem_map.mp hr with ⟨l, hl, hrl⟩
  subst hrl
  exact hall l hl _ hdmem

/-- Claim C10 witness: a concrete successful run leaves every record with
its MD5 digest entry, and hash_map succeeds on the resulting list. -/
theorem C10_all_digests_present_witness :
    (∀ l ∈ (hashFiles ⟨false, false⟩ ["md5"] [] "MD5" wFS [] [c4r1]).logs,
      hasAllAlgos ["MD5"] l.record) ∧
    ∃ hm, hash_map (defaultAlgorithm [] "MD5")
        ((hashFiles ⟨false, false⟩ ["md5"] [] "MD5" wFS [] [c4r1]).logs.map
          (fun l => l.record)) = .ok hm :=
  C10_all_digests_present ⟨false, false⟩ ["md5"] [] "MD5" wFS [] [c4r1] ["MD5"]
    (by rfl) (by decide) (by decide)

/-- Claim C5: during hash(), the first record for a given physical
identity that requires digest computation is hashed from file content
(its computed digests are the content oracle values), and every
subsequent record sharing that identity is not content-read again and
takes its digests from the already-computed record. Hypotheses: digests
of content are nonempty strings (hexdigest is never empty), and records
sharing an inode share their Size (the FileRecord physical-identity
invariant). -/
theorem C5_hardlink_short_circuit (opts : HashOpts) (registry algorithmsOpt : List String)
    (defaultAlgo : String) (fs : FS) (oldMap : List (String × OldInfo))
    (records : List FileRecord) (algos : List String)
    (halgos : algorithmsResolve registry algorithmsOpt defaultAlgo = .ok algos)
    (h1 : ∀ a p, fs.digest a p ≠ "")
    (h2 : ∀ x ∈ records, ∀ y ∈ records, x.Inum = y.Inum → x.Size = y.Size)
    (herr : (hashFiles opts registry algorithmsOpt defaultAlgo fs oldMap records).error =
      none) :
    ((hashFiles opts registry algorithmsOpt defaultAlgo fs oldMap records).logs).Pairwise
      (hlR algos) ∧
    ∀ l ∈ (hashFiles opts registry algorithmsOpt defaultAlgo fs oldMap records).logs,
      ∀ a ∈ l.computed, getDigest l.record a = some (fs.digest a l.record.Path) := by
  have hinv0 : hlInv fs records algos ⟨[], [], []⟩ [] := by
    refine ⟨List.Pairwise.nil, ?_, ?_, ?_⟩
    · intro l hl
      cases hl
    · intro k q hk
      simp [lookupAssoc] at hk
    · intro l hl
      cases hl
  have hfin := hashRun_hlInv opts registry algorithmsOpt defaultAlgo fs oldMap records algos
    halgos h1 h2 records ⟨[], [], []⟩ [] (fun x hx => hx) hinv0 herr
  exact ⟨hfin.1, hfin.2.2.2⟩

/-- Claim C5 witness: two hardlinked records (same inode); the first is
content-read, the second reuses its digests without reading. -/
theorem C5_hardlink_short_circuit_witness :
    ((hashFiles ⟨false, false⟩ ["md5"] [] "MD5" wFS [] [c4r1, c4r2]).logs).Pairwise
      (hlR ["MD5"]) ∧
    ∀ l ∈ (hashFiles ⟨false, false⟩ ["md5"] [] "MD5" wFS [] [c4r1, c4r2]).logs,
      ∀ a ∈ l.computed, getDigest l.record a = some (wFS.digest a l.record.Path) :=
  C5_hardlink_short_circuit ⟨false, false⟩ ["md5"] [] "MD5" wFS [] [c4r1, c4r2] ["MD5"]
    (by rfl) (fun a p => show ("f1" : String) ≠ "" by decide) (by decide) (by decide)

end Dupefinder
